import Mathlib

/-! Shallow embedding of the orderbookrs matching engine
(src/src/structs/orderbook.rs, src/src/structs/orderbooks_manager.rs,
src/src/heap/main.rs, src/src/structs/order.rs, src/src/enums).

Modelling conventions:
* u128 identifiers are modelled as `Nat`.
* f64 quantities are modelled as exact rationals (`ℚ`); floating-point rounding
  is outside the scope of the claims.
* f64 prices are modelled by `F64`, a rational extended with a `nan` point, so
  that NaN behaviour at the manager boundary (claim C4) is representable.  IEEE
  comparisons against nan are undefined: `F64.pcmp` returns `none` there,
  exactly like Rust's `partial_cmp`.  `Option::unwrap` aborts are not modelled
  (`unwrapF` maps `none` to `nan`); the theorems that traverse code which would
  unwrap a price carry a `PricedBook` hypothesis restricting attention to books
  in which every resting order has a finite price, mirroring spec s3
  invariant 2.
* crossbeam channel sends are modelled by returning the list of
  `OrderbookUpdate` records each operation emits, in emission order.
* `ModifiableBinaryHeap<Order>` delegates to `std::collections::BinaryHeap`; it
  is modelled by the heap's backing array (a `List Order`).  `peek` is the
  array head, `into_vec` the array itself, `retain` keeps the array intact when
  nothing is removed (std's `rebuild_tail(len)` is a no-op).  The std heap's
  interior layout after a rebuild (push sift-up, `BinaryHeap::from`, `retain`
  that removed something) is an implementation detail of std; it is modelled
  canonically as the array sorted in decreasing heap order, a valid max-heap
  layout produced with the stable insertion sort `sortByOrd` (the source's
  `modify` and `iter_sorted` sort with `Vec::sort`, which is stable).  No claim
  observes the interior layout of a rebuilt heap.
* `Order::cmp` unwraps a partial comparison and would abort on an incomparable
  (nan) pair; the total comparator `Order.heapLe` maps that case to
  `Ordering.eq` instead.  Theorems about code paths that sort carry NaN-free
  hypotheses so the model and the source agree wherever both are defined.
* `Order`/`Trade` status and timestamp fields (`status`, `payment_status`,
  `created_at`, `updated_at`, and `Trade.id`, always `None` at creation) are
  omitted from the records: the engine never reads them and no claim mentions
  them.
-/

namespace OrderbookRS

/-- IEEE double extended with the nan point; `num q` is a finite value. -/
inductive F64 where
  | nan : F64
  | num : ℚ → F64
deriving DecidableEq, Repr

/-- Total comparison of two rationals, as `f64::partial_cmp` on finite values. -/
def qcmp (a b : ℚ) : Ordering :=
  if a < b then Ordering.lt else if b < a then Ordering.gt else Ordering.eq

/-- `f64::partial_cmp`: undefined (`none`) whenever nan is involved. -/
def F64.pcmp : F64 → F64 → Option Ordering
  | F64.num a, F64.num b => some (qcmp a b)
  | _, _ => none

/-- f64 addition: nan propagates. -/
def F64.addF : F64 → F64 → F64
  | F64.num a, F64.num b => F64.num (a + b)
  | _, _ => F64.nan

/-- f64 division by 2.0: nan propagates. -/
def F64.div2 : F64 → F64
  | F64.num a => F64.num (a / 2)
  | F64.nan => F64.nan

/-- `Option::unwrap` on a price.  The source aborts on `None`; the claims only
traverse unwraps under a `PricedBook` hypothesis, so the `nan` default is never
reached where a theorem relies on this function. -/
def unwrapF : Option F64 → F64
  | some x => x
  | none => F64.nan

/-- enums/side.rs `OrderSide`. -/
inductive OrderSide where
  | buy : OrderSide
  | sell : OrderSide
deriving DecidableEq, Repr

/-- enums/order_type.rs `OrderType`. -/
inductive OrderType where
  | limit : OrderType
  | market : OrderType
deriving DecidableEq, Repr

/-- enums/orderbook_update_type.rs `OrderbookUpdateType`. -/
inductive OrderbookUpdateType where
  | new : OrderbookUpdateType
  | place : OrderbookUpdateType
  | cancel : OrderbookUpdateType
  | update : OrderbookUpdateType
  | newTrades : OrderbookUpdateType
  | filled : OrderbookUpdateType
deriving DecidableEq, Repr

/-- `PartialOrd` on `Option<f64>` (Rust: `None` is below `Some`); partial
inside because of nan. -/
def optPricePCmp : Option F64 → Option F64 → Option Ordering
  | none, none => some Ordering.eq
  | none, some _ => some Ordering.lt
  | some _, none => some Ordering.gt
  | some a, some b => F64.pcmp a b

/-- `PartialOrd::ge`, as in `bid.price >= ask.price` in `match_orders`:
true exactly when the partial comparison is `Greater` or `Equal`. -/
def optPriceGe (a b : Option F64) : Bool :=
  match optPricePCmp a b with
  | some Ordering.gt => true
  | some Ordering.eq => true
  | _ => false

/-- structs/order.rs `Order` (status and timestamp fields omitted, see header). -/
structure Order where
  id : Nat
  user_id : Nat
  symbol : Nat
  side : OrderSide
  quantity : ℚ
  non_mut_quantity : ℚ
  price : Option F64
  order_type : OrderType
deriving DecidableEq, Repr

/-- `Order::cmp` before the unwrap: price comparison, direction flipped for
sells (`self.side` decides the direction). -/
def Order.cmpO (a b : Order) : Option Ordering :=
  match a.side with
  | OrderSide.buy => optPricePCmp a.price b.price
  | OrderSide.sell => optPricePCmp b.price a.price

/-- Total `le` comparator derived from `Order::cmp`; the source unwraps and
would abort on an incomparable pair, which is mapped to `Ordering.eq` here. -/
def Order.heapLe (a b : Order) : Bool :=
  match (Order.cmpO a b).getD Ordering.eq with
  | Ordering.gt => false
  | _ => true

/-- Stable insertion of one element into a list ascending under `Order.heapLe`. -/
def insertByOrd (x : Order) : List Order → List Order
  | [] => [x]
  | y :: ys => if Order.heapLe x y then x :: y :: ys else y :: insertByOrd x ys

/-- Stable sort ascending under `Order.heapLe` (models `Vec::sort`, which is
a stable sort by `Ord`). -/
def sortByOrd : List Order → List Order
  | [] => []
  | x :: xs => insertByOrd x (sortByOrd xs)

namespace ModifiableBinaryHeap

/-- Canonical max-heap layout of a multiset of orders: the array sorted in
decreasing heap order (see the header for why rebuilds are modelled this way). -/
def reheap (h : List Order) : List Order := (sortByOrd h).reverse

/-- heap/main.rs `push`: insert, restoring the heap layout. -/
def push (h : List Order) (item : Order) : List Order := reheap (h ++ [item])

/-- heap/main.rs `peek`: a copy of the array root. -/
def peek (h : List Order) : Option Order := h.head?

/-- heap/main.rs `retain`: keep the elements satisfying the predicate; when
nothing is removed the array is untouched (std `rebuild_tail(len)` no-op),
otherwise the heap layout is rebuilt. -/
def retain (h : List Order) (retain_fn : Order → Bool) : List Order :=
  let kept := h.filter retain_fn
  if kept.length = h.length then h else reheap kept

/-- heap/main.rs `modify`: drain the array, apply the mutator to every
element, sort, and rebuild the heap from the sorted vector. -/
def modify (h : List Order) (modify_fn : Order → Order) : List Order :=
  reheap (h.map modify_fn)

/-- heap/main.rs `iter_sorted`: drain to a vector and sort ascending by `Ord`. -/
def iter_sorted (h : List Order) : List Order := sortByOrd h

/-- heap/main.rs `into_vec`: the backing array. -/
def into_vec (h : List Order) : List Order := h

end ModifiableBinaryHeap

/-- structs/trade.rs `Trade` (`id`, `status`, timestamps omitted: created as
`None`/defaults and never read). -/
structure Trade where
  symbol : Nat
  price : F64
  quantity : ℚ
  buy_order_id : Nat
  sell_order_id : Nat
  buy_user_id : Nat
  sell_user_id : Nat
deriving DecidableEq, Repr

/-- structs/orderbook_update.rs `OrderbookUpdate`. -/
structure OrderbookUpdate where
  symbol : Nat
  update_type : OrderbookUpdateType
  order : Option Order
  trade : Option Trade
  cancel_id : Option Nat
  filled_id : Option Nat
deriving DecidableEq, Repr

/-- structs/orderbook.rs `Orderbook` (the channel sender is modelled by the
event lists the operations return). -/
structure Orderbook where
  symbol : Nat
  bids : List Order
  asks : List Order
deriving DecidableEq, Repr

/-- `Orderbook::new`. -/
def Orderbook.new (symbol : Nat) : Orderbook := ⟨symbol, [], []⟩

/-- `Orderbook::order_filled`: remove every order with the id from the side,
emit `Filled { filled_id }`. -/
def Orderbook.order_filled (b : Orderbook) (order_id : Nat) (order_side : OrderSide) :
    Orderbook × List OrderbookUpdate :=
  let b1 : Orderbook :=
    match order_side with
    | OrderSide.buy => { b with bids := ModifiableBinaryHeap.retain b.bids (fun o => o.id != order_id) }
    | OrderSide.sell => { b with asks := ModifiableBinaryHeap.retain b.asks (fun o => o.id != order_id) }
  (b1, [⟨b.symbol, OrderbookUpdateType.filled, none, none, none, some order_id⟩])

/-- `Orderbook::cancel_order`: remove every order with the id from the side,
emit `Cancel { cancel_id }`. -/
def Orderbook.cancel_order (b : Orderbook) (order_id : Nat) (order_side : OrderSide) :
    Orderbook × List OrderbookUpdate :=
  let b1 : Orderbook :=
    match order_side with
    | OrderSide.buy => { b with bids := ModifiableBinaryHeap.retain b.bids (fun o => o.id != order_id) }
    | OrderSide.sell => { b with asks := ModifiableBinaryHeap.retain b.asks (fun o => o.id != order_id) }
  (b1, [⟨b.symbol, OrderbookUpdateType.cancel, none, none, some order_id, none⟩])

/-- `Orderbook::update_order`: `modify` the side, setting the quantity of every
order with the id; the emitted `Update` order field is the last mutated match in
drain (array) order, `None` when nothing matched.  No re-matching. -/
def Orderbook.update_order (b : Orderbook) (order_id : Nat) (new_quantity : ℚ)
    (order_side : OrderSide) : Orderbook × List OrderbookUpdate :=
  let f : Order → Order := fun o =>
    if o.id = order_id then { o with quantity := new_quantity } else o
  let sideArr : List Order :=
    match order_side with
    | OrderSide.buy => b.bids
    | OrderSide.sell => b.asks
  let captured : Option Order := ((sideArr.filter (fun o => o.id == order_id)).getLast?).map f
  let b1 : Orderbook :=
    match order_side with
    | OrderSide.buy => { b with bids := ModifiableBinaryHeap.modify b.bids f }
    | OrderSide.sell => { b with asks := ModifiableBinaryHeap.modify b.asks f }
  (b1, [⟨b.symbol, OrderbookUpdateType.update, captured, none, none, none⟩])

/-- One iteration of the `match_orders` loop body (orderbook.rs lines 198-286):
peek the best ask then the best bid, stop unless `bid.price >= ask.price`,
otherwise fill/shrink and emit the trade. -/
def Orderbook.matchStep (b : Orderbook) : Option (Orderbook × List OrderbookUpdate) :=
  match ModifiableBinaryHeap.peek b.asks with
  | none => none
  | some ask =>
    match ModifiableBinaryHeap.peek b.bids with
    | none => none
    | some bid =>
      if optPriceGe bid.price ask.price then
        if bid.quantity < ask.quantity then
          -- ask.quantity > bid.quantity: fill the bid, shrink the ask
          let r1 := b.order_filled bid.id bid.side
          let r2 := r1.1.update_order ask.id (ask.quantity - bid.quantity) ask.side
          let trade : Trade :=
            ⟨b.symbol, unwrapF ask.price, bid.quantity, bid.id, ask.id, bid.user_id, ask.user_id⟩
          some (r2.1, r1.2 ++ r2.2 ++
            [⟨b.symbol, OrderbookUpdateType.newTrades, none, some trade, none, none⟩])
        else if ask.quantity < bid.quantity then
          -- ask.quantity < bid.quantity: fill the ask, shrink the bid
          let r1 := b.order_filled ask.id ask.side
          let r2 := r1.1.update_order bid.id (bid.quantity - ask.quantity) bid.side
          let trade : Trade :=
            ⟨b.symbol, unwrapF ask.price, ask.quantity, bid.id, ask.id, bid.user_id, ask.user_id⟩
          some (r2.1, r1.2 ++ r2.2 ++
            [⟨b.symbol, OrderbookUpdateType.newTrades, none, some trade, none, none⟩])
        else
          -- equal quantities: fill both
          let r1 := b.order_filled ask.id ask.side
          let r2 := r1.1.order_filled bid.id bid.side
          let trade : Trade :=
            ⟨b.symbol, unwrapF ask.price, ask.quantity, bid.id, ask.id, bid.user_id, ask.user_id⟩
          some (r2.1, r1.2 ++ r2.2 ++
            [⟨b.symbol, OrderbookUpdateType.newTrades, none, some trade, none, none⟩])
      else none

/-- The `match_orders` loop, fuelled.  On side-consistent books (the only ones
the public API constructs) the loop removes at least one resting order per
iteration, so `bids.length + asks.length` fuel always reaches the loop's own
exit condition; see `matchOrdersAux_exit`. -/
def Orderbook.matchOrdersAux : Nat → Orderbook → Orderbook × List OrderbookUpdate
  | 0, b => (b, [])
  | Nat.succ fuel, b =>
    match b.matchStep with
    | none => (b, [])
    | some (b1, evs) =>
      let r := Orderbook.matchOrdersAux fuel b1
      (r.1, evs ++ r.2)

/-- `Orderbook::match_orders`. -/
def Orderbook.match_orders (b : Orderbook) : Orderbook × List OrderbookUpdate :=
  Orderbook.matchOrdersAux (b.bids.length + b.asks.length) b

/-- `Orderbook::place_order`: push onto the side, emit `Place { order }`, then
match. -/
def Orderbook.place_order (b : Orderbook) (order : Order) : Orderbook × List OrderbookUpdate :=
  let b1 : Orderbook :=
    match order.side with
    | OrderSide.buy => { b with bids := ModifiableBinaryHeap.push b.bids order }
    | OrderSide.sell => { b with asks := ModifiableBinaryHeap.push b.asks order }
  let r := b1.match_orders
  (r.1, ⟨b.symbol, OrderbookUpdateType.place, some order, none, none, none⟩ :: r.2)

/-- `Orderbook::amend_order_price`: `modify` the side setting the price of every
order with the id, emit one `Update` whose order field is the last match (or
`None`), then match. -/
def Orderbook.amend_order_price (b : Orderbook) (order_id : Nat) (new_price : F64)
    (order_side : OrderSide) : Orderbook × List OrderbookUpdate :=
  let f : Order → Order := fun o =>
    if o.id = order_id then { o with price := some new_price } else o
  let sideArr : List Order :=
    match order_side with
    | OrderSide.buy => b.bids
    | OrderSide.sell => b.asks
  let captured : Option Order := ((sideArr.filter (fun o => o.id == order_id)).getLast?).map f
  let b1 : Orderbook :=
    match order_side with
    | OrderSide.buy => { b with bids := ModifiableBinaryHeap.modify b.bids f }
    | OrderSide.sell => { b with asks := ModifiableBinaryHeap.modify b.asks f }
  let r := b1.match_orders
  (r.1, ⟨b.symbol, OrderbookUpdateType.update, captured, none, none, none⟩ :: r.2)

/-- `Orderbook::amend_order_quantity`: the source repeats `update_order`'s body
verbatim and then calls `match_orders`. -/
def Orderbook.amend_order_quantity (b : Orderbook) (order_id : Nat) (new_quantity : ℚ)
    (order_side : OrderSide) : Orderbook × List OrderbookUpdate :=
  let r := b.update_order order_id new_quantity order_side
  let m := r.1.match_orders
  (m.1, r.2 ++ m.2)

/-- The `OrderType::Market`, `OrderSide::Buy` loop of `add_order` (orderbook.rs
lines 350-404), fuelled by the number of resting asks. -/
def Orderbook.marketBuyAux (o : Order) : Nat → Orderbook → ℚ → Orderbook × List OrderbookUpdate
  | 0, b, _ => (b, [])
  | Nat.succ fuel, b, quantity =>
    match ModifiableBinaryHeap.peek b.asks with
    | none => (b, [])
    | some ask =>
      if ask.quantity ≤ quantity then
        let r1 := b.order_filled ask.id ask.side
        let trade : Trade :=
          ⟨b.symbol, unwrapF ask.price, ask.quantity, o.id, ask.id, o.user_id, ask.user_id⟩
        let r2 := Orderbook.marketBuyAux o fuel r1.1 (quantity - ask.quantity)
        (r2.1, r1.2 ++
          [⟨b.symbol, OrderbookUpdateType.newTrades, none, some trade, none, none⟩] ++ r2.2)
      else
        let r1 := b.update_order ask.id (ask.quantity - quantity) ask.side
        let trade : Trade :=
          ⟨b.symbol, unwrapF ask.price, quantity, o.id, ask.id, o.user_id, ask.user_id⟩
        (r1.1, r1.2 ++
          [⟨b.symbol, OrderbookUpdateType.newTrades, none, some trade, none, none⟩])

/-- The `OrderType::Market`, `OrderSide::Sell` loop of `add_order` (orderbook.rs
lines 406-460), fuelled by the number of resting bids. -/
def Orderbook.marketSellAux (o : Order) : Nat → Orderbook → ℚ → Orderbook × List OrderbookUpdate
  | 0, b, _ => (b, [])
  | Nat.succ fuel, b, quantity =>
    match ModifiableBinaryHeap.peek b.bids with
    | none => (b, [])
    | some bid =>
      if bid.quantity ≤ quantity then
        let r1 := b.order_filled bid.id bid.side
        let trade : Trade :=
          ⟨b.symbol, unwrapF bid.price, bid.quantity, bid.id, o.id, bid.user_id, o.user_id⟩
        let r2 := Orderbook.marketSellAux o fuel r1.1 (quantity - bid.quantity)
        (r2.1, r1.2 ++
          [⟨b.symbol, OrderbookUpdateType.newTrades, none, some trade, none, none⟩] ++ r2.2)
      else
        let r1 := b.update_order bid.id (bid.quantity - quantity) bid.side
        let trade : Trade :=
          ⟨b.symbol, unwrapF bid.price, quantity, bid.id, o.id, bid.user_id, o.user_id⟩
        (r1.1, r1.2 ++
          [⟨b.symbol, OrderbookUpdateType.newTrades, none, some trade, none, none⟩])

/-- `Orderbook::add_order`: emit `New { order }`, then dispatch: limit orders go
through `place_order`, market orders run the sweep loop on the opposing side
and never rest. -/
def Orderbook.add_order (b : Orderbook) (order : Order) : Orderbook × List OrderbookUpdate :=
  let newEv : OrderbookUpdate :=
    ⟨b.symbol, OrderbookUpdateType.new, some order, none, none, none⟩
  match order.order_type with
  | OrderType.limit =>
      let r := b.place_order order
      (r.1, newEv :: r.2)
  | OrderType.market =>
      if order.side = OrderSide.buy then
        let r := Orderbook.marketBuyAux order b.asks.length b order.quantity
        (r.1, newEv :: r.2)
      else
        let r := Orderbook.marketSellAux order b.bids.length b order.quantity
        (r.1, newEv :: r.2)

/-- Running per-element cumulative triples `(price, quantity, running_sum)`,
as the mutable `ask_sum`/`bid_sum` loops of `summarize_orderbook_per_price_level`. -/
def cumTriples : List Order → ℚ → List (F64 × ℚ × ℚ)
  | [], _ => []
  | o :: rest, acc =>
      (unwrapF o.price, o.quantity, acc + o.quantity) :: cumTriples rest (acc + o.quantity)

/-- `Orderbook::get_mid_price`. -/
def Orderbook.get_mid_price (b : Orderbook) : F64 :=
  match ModifiableBinaryHeap.peek b.bids, ModifiableBinaryHeap.peek b.asks with
  | some bid, some ask => F64.div2 (F64.addF (unwrapF bid.price) (unwrapF ask.price))
  | _, _ => F64.num 0

/-- `Orderbook::summarize_orderbook_per_price_level`: asks in `into_vec` (heap
array) order, bids sorted ascending by `Ord` (worst to best) then reversed,
mid price in the middle. -/
def Orderbook.summarize_orderbook_per_price_level (b : Orderbook) :
    List (F64 × ℚ × ℚ) × F64 × List (F64 × ℚ × ℚ) :=
  let asks := cumTriples (ModifiableBinaryHeap.into_vec b.asks) 0
  let bids := (cumTriples (ModifiableBinaryHeap.iter_sorted b.bids) 0).reverse
  (bids, b.get_mid_price, asks)

/-- structs/orderbooks_manager.rs `OrderbooksManager` (the `HashMap` modelled as
an association list with unique keys; channel endpoints modelled by the
returned event lists). -/
structure OrderbooksManager where
  orderbooks : List (Nat × Orderbook)
deriving DecidableEq, Repr

/-- `HashMap::get` on the association list. -/
def findBook : List (Nat × Orderbook) → Nat → Option Orderbook
  | [], _ => none
  | (k, v) :: rest, s => if k = s then some v else findBook rest s

/-- `HashMap::insert` on the association list: replaces the entry if the key is
present, appends otherwise. -/
def insertBook : List (Nat × Orderbook) → Nat → Orderbook → List (Nat × Orderbook)
  | [], s, bk => [(s, bk)]
  | (k, v) :: rest, s, bk =>
      if k = s then (s, bk) :: rest else (k, v) :: insertBook rest s bk

/-- `OrderbooksManager::new_orderbook`: construct a fresh book for the symbol
and insert it unconditionally. -/
def OrderbooksManager.new_orderbook (m : OrderbooksManager) (symbol : Nat) : OrderbooksManager :=
  ⟨insertBook m.orderbooks symbol (Orderbook.new symbol)⟩

/-- The only error the manager ever constructs (`std::io::ErrorKind::NotFound`). -/
inductive ManagerError where
  | notFound : ManagerError
deriving DecidableEq, Repr

/-- `OrderbooksManager::add_order`: look the book up by `order.symbol`,
forward, `NotFound` when no book exists.  No input validation of any kind. -/
def OrderbooksManager.add_order (m : OrderbooksManager) (order : Order) :
    Except ManagerError (OrderbooksManager × List OrderbookUpdate) :=
  match findBook m.orderbooks order.symbol with
  | some bk =>
      let r := bk.add_order order
      Except.ok (⟨insertBook m.orderbooks order.symbol r.1⟩, r.2)
  | none => Except.error ManagerError.notFound

/-! Invariants of reachable book states (spec s3, Invariants 1-3).  The public
API only ever pushes buy orders onto `bids` and sell orders onto `asks`
(`place_order` dispatches on `order.side`), and no operation changes a resting
order's side, so side-consistency holds for every reachable book; finite prices
and positive quantities hold whenever callers supply valid input. -/

/-- Every resting bid is a buy and every resting ask is a sell. -/
def SideConsistent (b : Orderbook) : Prop :=
  (∀ o ∈ b.bids, o.side = OrderSide.buy) ∧ (∀ o ∈ b.asks, o.side = OrderSide.sell)

/-- The price is present and finite. -/
def isNumPrice : Option F64 → Bool
  | some (F64.num _) => true
  | _ => false

/-- Every resting order has a present, finite price (spec s3, Invariant 2). -/
def PricedBook (b : Orderbook) : Prop :=
  (∀ o ∈ b.bids, isNumPrice o.price = true) ∧ (∀ o ∈ b.asks, isNumPrice o.price = true)

/-- Every resting order has strictly positive quantity (spec s3, Invariant 1). -/
def PosBook (b : Orderbook) : Prop :=
  (∀ o ∈ b.bids, 0 < o.quantity) ∧ (∀ o ∈ b.asks, 0 < o.quantity)

/-! Elementary comparison lemmas. -/

theorem qcmp_lt_of {a b : ℚ} (h : a < b) : qcmp a b = Ordering.lt := by
  unfold qcmp
  rw [if_pos h]

theorem qcmp_gt_of {a b : ℚ} (h : b < a) : qcmp a b = Ordering.gt := by
  unfold qcmp
  rw [if_neg (not_lt.mpr (le_of_lt h)), if_pos h]

theorem qcmp_eq_self (a : ℚ) : qcmp a a = Ordering.eq := by
  unfold qcmp
  simp

theorem optPriceGe_num_eq (a b : ℚ) :
    optPriceGe (some (F64.num a)) (some (F64.num b)) = decide (b ≤ a) := by
  rcases lt_trichotomy a b with h | h | h
  · simp [optPriceGe, optPricePCmp, F64.pcmp, qcmp_lt_of h, not_le.mpr h]
  · subst h
    simp [optPriceGe, optPricePCmp, F64.pcmp, qcmp_eq_self]
  · simp [optPriceGe, optPricePCmp, F64.pcmp, qcmp_gt_of h, le_of_lt h]

theorem optPriceGe_num {a b : ℚ} :
    optPriceGe (some (F64.num a)) (some (F64.num b)) = true ↔ b ≤ a := by
  rw [optPriceGe_num_eq]
  simp

theorem optPriceGe_num_false {a b : ℚ} :
    optPriceGe (some (F64.num a)) (some (F64.num b)) = false ↔ a < b := by
  rw [optPriceGe_num_eq]
  simp

/-! Permutation and membership lemmas about the heap model. -/

theorem insertByOrd_perm (x : Order) (l : List Order) : List.Perm (insertByOrd x l) (x :: l) := by
  induction l with
  | nil => simp [insertByOrd]
  | cons y ys ih =>
    by_cases h : Order.heapLe x y
    · simp [insertByOrd, h]
    · simp only [insertByOrd, if_neg h]
      exact List.Perm.trans (List.Perm.cons y ih) (List.Perm.swap x y ys)

theorem sortByOrd_perm (l : List Order) : List.Perm (sortByOrd l) l := by
  induction l with
  | nil => simp [sortByOrd]
  | cons x xs ih =>
    exact List.Perm.trans (insertByOrd_perm x (sortByOrd xs)) (List.Perm.cons x ih)

namespace ModifiableBinaryHeap

theorem reheap_perm (l : List Order) : List.Perm (reheap l) l :=
  List.Perm.trans (List.reverse_perm (sortByOrd l)) (sortByOrd_perm l)

theorem reheap_length (l : List Order) : (reheap l).length = l.length :=
  (reheap_perm l).length_eq

theorem mem_reheap {o : Order} {l : List Order} : o ∈ reheap l ↔ o ∈ l :=
  (reheap_perm l).mem_iff

theorem modify_perm (l : List Order) (f : Order → Order) : List.Perm (modify l f) (l.map f) :=
  reheap_perm (l.map f)

theorem modify_length (l : List Order) (f : Order → Order) :
    (modify l f).length = l.length := by
  rw [(modify_perm l f).length_eq, List.length_map]

theorem mem_modify {o : Order} {l : List Order} {f : Order → Order}
    (h : o ∈ modify l f) : ∃ x ∈ l, o = f x := by
  rw [(modify_perm l f).mem_iff, List.mem_map] at h
  obtain ⟨x, hx, hfx⟩ := h
  exact ⟨x, hx, hfx.symm⟩

theorem retain_perm (l : List Order) (p : Order → Bool) : List.Perm (retain l p) (l.filter p) := by
  show List.Perm
    (if (List.filter p l).length = l.length then l else reheap (List.filter p l))
    (List.filter p l)
  by_cases h : (List.filter p l).length = l.length
  · have hf : List.filter p l = l := List.filter_eq_self.mpr (List.filter_length_eq_length.mp h)
    rw [if_pos h, hf]
  · rw [if_neg h]
    exact reheap_perm (List.filter p l)

theorem mem_retain {o : Order} {l : List Order} {p : Order → Bool} :
    o ∈ retain l p ↔ o ∈ l.filter p :=
  (retain_perm l p).mem_iff

theorem mem_of_mem_retain {o : Order} {l : List Order} {p : Order → Bool}
    (h : o ∈ retain l p) : o ∈ l :=
  List.mem_of_mem_filter (mem_retain.mp h)

theorem retain_length_le (l : List Order) (p : Order → Bool) :
    (retain l p).length ≤ l.length := by
  rw [(retain_perm l p).length_eq]
  exact List.length_filter_le p l

theorem retain_length_lt {l : List Order} {p : Order → Bool} {x : Order}
    (hx : x ∈ l) (hpx : p x = false) : (retain l p).length < l.length := by
  rw [(retain_perm l p).length_eq]
  exact List.length_filter_lt_length_iff_exists.mpr ⟨x, hx, by simp [hpx]⟩

theorem peek_mem {l : List Order} {o : Order} (h : peek l = some o) : o ∈ l := by
  cases l with
  | nil => cases h
  | cons x xs =>
      unfold peek at h
      simp at h
      subst h
      exact List.mem_cons_self x xs

theorem peek_eq_none {l : List Order} (h : peek l = none) : l = [] := by
  cases l with
  | nil => rfl
  | cons x xs => cases h

theorem mem_push {o x : Order} {l : List Order} (h : o ∈ push l x) :
    o ∈ l ∨ o = x := by
  unfold push at h
  rw [mem_reheap, List.mem_append, List.mem_singleton] at h
  exact h

end ModifiableBinaryHeap

/-! Characterisations of one matching step. -/

/-- The trade record a matching step emits when `q` is the traded quantity. -/
def stepTrade (b : Orderbook) (bid ask : Order) (q : ℚ) : Trade :=
  ⟨b.symbol, unwrapF ask.price, q, bid.id, ask.id, bid.user_id, ask.user_id⟩

/-- The `NewTrades` update record wrapping a trade. -/
def tradeEv (b : Orderbook) (t : Trade) : OrderbookUpdate :=
  ⟨b.symbol, OrderbookUpdateType.newTrades, none, some t, none, none⟩

theorem matchStep_eq_none_cases {b : Orderbook} (h : b.matchStep = none) :
    b.asks = [] ∨ b.bids = [] ∨
    ∃ ask bid, ModifiableBinaryHeap.peek b.asks = some ask ∧
      ModifiableBinaryHeap.peek b.bids = some bid ∧
      optPriceGe bid.price ask.price = false := by
  cases hA : ModifiableBinaryHeap.peek b.asks with
  | none => exact Or.inl (ModifiableBinaryHeap.peek_eq_none hA)
  | some ask =>
    cases hB : ModifiableBinaryHeap.peek b.bids with
    | none => exact Or.inr (Or.inl (ModifiableBinaryHeap.peek_eq_none hB))
    | some bid =>
      refine Or.inr (Or.inr ⟨ask, bid, rfl, rfl, ?_⟩)
      cases hge : optPriceGe bid.price ask.price with
      | false => rfl
      | true =>
        exfalso
        simp only [Orderbook.matchStep, hA, hB, hge, if_true] at h
        rcases lt_trichotomy bid.quantity ask.quantity with hlt | heq | hgt
        · rw [if_pos hlt] at h
          exact Option.noConfusion h
        · rw [if_neg (heq ▸ lt_irrefl _), if_neg (heq ▸ lt_irrefl _)] at h
          exact Option.noConfusion h
        · rw [if_neg (not_lt.mpr (le_of_lt hgt)), if_pos hgt] at h
          exact Option.noConfusion h

theorem matchStep_eq_some_cases {b b1 : Orderbook} {evs : List OrderbookUpdate}
    (h : b.matchStep = some (b1, evs)) :
    ∃ ask bid, ModifiableBinaryHeap.peek b.asks = some ask ∧
      ModifiableBinaryHeap.peek b.bids = some bid ∧
      optPriceGe bid.price ask.price = true ∧
      ((bid.quantity < ask.quantity ∧
          b1 = ((b.order_filled bid.id bid.side).1.update_order ask.id
            (ask.quantity - bid.quantity) ask.side).1 ∧
          evs = (b.order_filled bid.id bid.side).2 ++
            ((b.order_filled bid.id bid.side).1.update_order ask.id
              (ask.quantity - bid.quantity) ask.side).2 ++
            [tradeEv b (stepTrade b bid ask bid.quantity)]) ∨
        (ask.quantity < bid.quantity ∧
          b1 = ((b.order_filled ask.id ask.side).1.update_order bid.id
            (bid.quantity - ask.quantity) bid.side).1 ∧
          evs = (b.order_filled ask.id ask.side).2 ++
            ((b.order_filled ask.id ask.side).1.update_order bid.id
              (bid.quantity - ask.quantity) bid.side).2 ++
            [tradeEv b (stepTrade b bid ask ask.quantity)]) ∨
        (ask.quantity = bid.quantity ∧
          b1 = ((b.order_filled ask.id ask.side).1.order_filled bid.id bid.side).1 ∧
          evs = (b.order_filled ask.id ask.side).2 ++
            ((b.order_filled ask.id ask.side).1.order_filled bid.id bid.side).2 ++
            [tradeEv b (stepTrade b bid ask ask.quantity)])) := by
  cases hA : ModifiableBinaryHeap.peek b.asks with
  | none =>
    simp only [Orderbook.matchStep, hA] at h
    exact Option.noConfusion h
  | some ask =>
    cases hB : ModifiableBinaryHeap.peek b.bids with
    | none =>
      simp only [Orderbook.matchStep, hA, hB] at h
      exact Option.noConfusion h
    | some bid =>
      refine ⟨ask, bid, rfl, rfl, ?_⟩
      cases hge : optPriceGe bid.price ask.price with
      | false =>
        exfalso
        simp only [Orderbook.matchStep, hA, hB, hge, Bool.false_eq_true, if_false] at h
        exact Option.noConfusion h
      | true =>
        refine ⟨rfl, ?_⟩
        simp only [Orderbook.matchStep, hA, hB, hge, if_true] at h
        rcases lt_trichotomy bid.quantity ask.quantity with hlt | heq | hgt
        · rw [if_pos hlt] at h
          have h' := Option.some.inj h
          exact Or.inl ⟨hlt, (congrArg Prod.fst h').symm, (congrArg Prod.snd h').symm⟩
        · rw [if_neg (heq ▸ lt_irrefl _), if_neg (heq ▸ lt_irrefl _)] at h
          have h' := Option.some.inj h
          exact Or.inr (Or.inr ⟨heq.symm,
            (congrArg Prod.fst h').symm, (congrArg Prod.snd h').symm⟩)
        · rw [if_neg (not_lt.mpr (le_of_lt hgt)), if_pos hgt] at h
          have h' := Option.some.inj h
          exact Or.inr (Or.inl ⟨hgt,
            (congrArg Prod.fst h').symm, (congrArg Prod.snd h').symm⟩)

/-! Per-operation preservation of per-order predicates. -/

theorem order_filled_pres {P Q : Order → Prop} {b : Orderbook} (oid : Nat) (s : OrderSide)
    (h1 : ∀ o ∈ b.bids, P o) (h2 : ∀ o ∈ b.asks, Q o) :
    (∀ o ∈ (b.order_filled oid s).1.bids, P o) ∧ (∀ o ∈ (b.order_filled oid s).1.asks, Q o) := by
  cases s
  · exact ⟨fun o ho => h1 o (ModifiableBinaryHeap.mem_of_mem_retain ho), h2⟩
  · exact ⟨h1, fun o ho => h2 o (ModifiableBinaryHeap.mem_of_mem_retain ho)⟩

theorem cancel_order_pres {P Q : Order → Prop} {b : Orderbook} (oid : Nat) (s : OrderSide)
    (h1 : ∀ o ∈ b.bids, P o) (h2 : ∀ o ∈ b.asks, Q o) :
    (∀ o ∈ (b.cancel_order oid s).1.bids, P o) ∧ (∀ o ∈ (b.cancel_order oid s).1.asks, Q o) := by
  cases s
  · exact ⟨fun o ho => h1 o (ModifiableBinaryHeap.mem_of_mem_retain ho), h2⟩
  · exact ⟨h1, fun o ho => h2 o (ModifiableBinaryHeap.mem_of_mem_retain ho)⟩

theorem update_order_pres {P Q : Order → Prop} {b : Orderbook} (oid : Nat) (nq : ℚ)
    (s : OrderSide)
    (hP : ∀ o, P o → P { o with quantity := nq })
    (hQ : ∀ o, Q o → Q { o with quantity := nq })
    (h1 : ∀ o ∈ b.bids, P o) (h2 : ∀ o ∈ b.asks, Q o) :
    (∀ o ∈ (b.update_order oid nq s).1.bids, P o) ∧
      (∀ o ∈ (b.update_order oid nq s).1.asks, Q o) := by
  cases s
  · refine ⟨fun o ho => ?_, h2⟩
    obtain ⟨x, hx, hox⟩ := ModifiableBinaryHeap.mem_modify ho
    subst hox
    by_cases hid : x.id = oid
    · rw [if_pos hid]
      exact hP x (h1 x hx)
    · rw [if_neg hid]
      exact h1 x hx
  · refine ⟨h1, fun o ho => ?_⟩
    obtain ⟨x, hx, hox⟩ := ModifiableBinaryHeap.mem_modify ho
    subst hox
    by_cases hid : x.id = oid
    · rw [if_pos hid]
      exact hQ x (h2 x hx)
    · rw [if_neg hid]
      exact h2 x hx

/-! Side-array lengths under the operations. -/

theorem order_filled_lengths {b : Orderbook} (oid : Nat) (s : OrderSide) :
    (b.order_filled oid s).1.bids.length ≤ b.bids.length ∧
      (b.order_filled oid s).1.asks.length ≤ b.asks.length := by
  cases s
  · exact ⟨ModifiableBinaryHeap.retain_length_le _ _, le_refl _⟩
  · exact ⟨le_refl _, ModifiableBinaryHeap.retain_length_le _ _⟩

theorem update_order_lengths {b : Orderbook} (oid : Nat) (nq : ℚ) (s : OrderSide) :
    (b.update_order oid nq s).1.bids.length = b.bids.length ∧
      (b.update_order oid nq s).1.asks.length = b.asks.length := by
  cases s
  · exact ⟨ModifiableBinaryHeap.modify_length _ _, rfl⟩
  · exact ⟨rfl, ModifiableBinaryHeap.modify_length _ _⟩

theorem order_filled_hit_bids {b : Orderbook} {x : Order} (hx : x ∈ b.bids) :
    (b.order_filled x.id OrderSide.buy).1.bids.length < b.bids.length :=
  ModifiableBinaryHeap.retain_length_lt hx (by simp)

theorem order_filled_hit_asks {b : Orderbook} {x : Order} (hx : x ∈ b.asks) :
    (b.order_filled x.id OrderSide.sell).1.asks.length < b.asks.length :=
  ModifiableBinaryHeap.retain_length_lt hx (by simp)

/-! One matching step: invariant preservation and size decrease. -/

theorem matchStep_pres_qty {P Q : Order → Prop}
    (hP : ∀ o q, P o → P { o with quantity := q })
    (hQ : ∀ o q, Q o → Q { o with quantity := q })
    {b b1 : Orderbook} {evs : List OrderbookUpdate}
    (hstep : b.matchStep = some (b1, evs))
    (h1 : ∀ o ∈ b.bids, P o) (h2 : ∀ o ∈ b.asks, Q o) :
    (∀ o ∈ b1.bids, P o) ∧ (∀ o ∈ b1.asks, Q o) := by
  obtain ⟨ask, bid, hA, hB, hge, hc⟩ := matchStep_eq_some_cases hstep
  rcases hc with ⟨_, hb1, _⟩ | ⟨_, hb1, _⟩ | ⟨_, hb1, _⟩ <;> subst hb1
  · obtain ⟨g1, g2⟩ := order_filled_pres bid.id bid.side h1 h2
    exact update_order_pres ask.id _ ask.side (fun o => hP o _) (fun o => hQ o _) g1 g2
  · obtain ⟨g1, g2⟩ := order_filled_pres ask.id ask.side h1 h2
    exact update_order_pres bid.id _ bid.side (fun o => hP o _) (fun o => hQ o _) g1 g2
  · obtain ⟨g1, g2⟩ := order_filled_pres ask.id ask.side h1 h2
    exact order_filled_pres bid.id bid.side g1 g2

theorem matchStep_pos {b b1 : Orderbook} {evs : List OrderbookUpdate}
    (hstep : b.matchStep = some (b1, evs)) (h : PosBook b) : PosBook b1 := by
  obtain ⟨h1, h2⟩ := h
  obtain ⟨ask, bid, hA, hB, hge, hc⟩ := matchStep_eq_some_cases hstep
  rcases hc with ⟨hlt, hb1, _⟩ | ⟨hlt, hb1, _⟩ | ⟨heq, hb1, _⟩ <;> subst hb1
  · obtain ⟨g1, g2⟩ := order_filled_pres bid.id bid.side h1 h2
    exact update_order_pres ask.id _ ask.side
      (fun o _ => by simpa using sub_pos.mpr hlt)
      (fun o _ => by simpa using sub_pos.mpr hlt) g1 g2
  · obtain ⟨g1, g2⟩ := order_filled_pres ask.id ask.side h1 h2
    exact update_order_pres bid.id _ bid.side
      (fun o _ => by simpa using sub_pos.mpr hlt)
      (fun o _ => by simpa using sub_pos.mpr hlt) g1 g2
  · obtain ⟨g1, g2⟩ := order_filled_pres ask.id ask.side h1 h2
    exact order_filled_pres bid.id bid.side g1 g2

theorem matchStep_sideConsistent {b b1 : Orderbook} {evs : List OrderbookUpdate}
    (hstep : b.matchStep = some (b1, evs)) (h : SideConsistent b) : SideConsistent b1 :=
  matchStep_pres_qty (fun _ _ hp => hp) (fun _ _ hp => hp) hstep h.1 h.2

theorem matchStep_priced {b b1 : Orderbook} {evs : List OrderbookUpdate}
    (hstep : b.matchStep = some (b1, evs)) (h : PricedBook b) : PricedBook b1 :=
  matchStep_pres_qty (fun _ _ hp => hp) (fun _ _ hp => hp) hstep h.1 h.2

theorem matchStep_size_lt {b b1 : Orderbook} {evs : List OrderbookUpdate}
    (hstep : b.matchStep = some (b1, evs)) (hsc : SideConsistent b) :
    b1.bids.length + b1.asks.length < b.bids.length + b.asks.length := by
  obtain ⟨ask, bid, hA, hB, hge, hc⟩ := matchStep_eq_some_cases hstep
  have hbidmem : bid ∈ b.bids := ModifiableBinaryHeap.peek_mem hB
  have haskmem : ask ∈ b.asks := ModifiableBinaryHeap.peek_mem hA
  have hbside : bid.side = OrderSide.buy := hsc.1 bid hbidmem
  have haside : ask.side = OrderSide.sell := hsc.2 ask haskmem
  rcases hc with ⟨_, hb1, _⟩ | ⟨_, hb1, _⟩ | ⟨_, hb1, _⟩ <;> subst hb1
  · obtain ⟨u1, u2⟩ := update_order_lengths (b := (b.order_filled bid.id bid.side).1)
      ask.id (ask.quantity - bid.quantity) ask.side
    rw [u1, u2]
    have hdrop : (b.order_filled bid.id bid.side).1.bids.length < b.bids.length := by
      rw [hbside]
      exact order_filled_hit_bids hbidmem
    have hkeep : (b.order_filled bid.id bid.side).1.asks.length ≤ b.asks.length :=
      (order_filled_lengths bid.id bid.side).2
    omega
  · obtain ⟨u1, u2⟩ := update_order_lengths (b := (b.order_filled ask.id ask.side).1)
      bid.id (bid.quantity - ask.quantity) bid.side
    rw [u1, u2]
    have hdrop : (b.order_filled ask.id ask.side).1.asks.length < b.asks.length := by
      rw [haside]
      exact order_filled_hit_asks haskmem
    have hkeep : (b.order_filled ask.id ask.side).1.bids.length ≤ b.bids.length :=
      (order_filled_lengths ask.id ask.side).1
    omega
  · have hdrop : (b.order_filled ask.id ask.side).1.asks.length < b.asks.length := by
      rw [haside]
      exact order_filled_hit_asks haskmem
    have hkeep : (b.order_filled ask.id ask.side).1.bids.length ≤ b.bids.length :=
      (order_filled_lengths ask.id ask.side).1
    have hstep2 := order_filled_lengths (b := (b.order_filled ask.id ask.side).1)
      bid.id bid.side
    omega

/-! The matching loop: invariants, exit condition, event shapes. -/

theorem isNumPrice_iff {p : Option F64} :
    isNumPrice p = true ↔ ∃ q, p = some (F64.num q) := by
  cases p with
  | none => simp [isNumPrice]
  | some x => cases x <;> simp [isNumPrice]

theorem matchOrdersAux_pres_qty {P Q : Order → Prop}
    (hP : ∀ o q, P o → P { o with quantity := q })
    (hQ : ∀ o q, Q o → Q { o with quantity := q })
    (fuel : Nat) :
    ∀ b : Orderbook, (∀ o ∈ b.bids, P o) → (∀ o ∈ b.asks, Q o) →
      (∀ o ∈ (Orderbook.matchOrdersAux fuel b).1.bids, P o) ∧
        (∀ o ∈ (Orderbook.matchOrdersAux fuel b).1.asks, Q o) := by
  induction fuel with
  | zero =>
    intro b h1 h2
    exact ⟨h1, h2⟩
  | succ n ih =>
    intro b h1 h2
    cases hs : b.matchStep with
    | none =>
      simp only [Orderbook.matchOrdersAux, hs]
      exact ⟨h1, h2⟩
    | some p =>
      obtain ⟨b1, evs⟩ := p
      have hpres := matchStep_pres_qty hP hQ hs h1 h2
      simp only [Orderbook.matchOrdersAux, hs]
      exact ih b1 hpres.1 hpres.2

theorem matchOrdersAux_pos (fuel : Nat) :
    ∀ b : Orderbook, PosBook b → PosBook (Orderbook.matchOrdersAux fuel b).1 := by
  induction fuel with
  | zero =>
    intro b h
    exact h
  | succ n ih =>
    intro b h
    cases hs : b.matchStep with
    | none =>
      simp only [Orderbook.matchOrdersAux, hs]
      exact h
    | some p =>
      obtain ⟨b1, evs⟩ := p
      simp only [Orderbook.matchOrdersAux, hs]
      exact ih b1 (matchStep_pos hs h)

/-- The state the matching loop stops in: a side is empty or the best bid is
strictly below the best ask. -/
def MatchedPost (b : Orderbook) : Prop :=
  b.bids = [] ∨ b.asks = [] ∨
  ∃ bid ask bp ap,
    ModifiableBinaryHeap.peek b.bids = some bid ∧
    ModifiableBinaryHeap.peek b.asks = some ask ∧
    bid.price = some (F64.num bp) ∧ ask.price = some (F64.num ap) ∧ bp < ap

theorem matchOrdersAux_exit (fuel : Nat) :
    ∀ b : Orderbook, SideConsistent b → PricedBook b →
      b.bids.length + b.asks.length ≤ fuel →
      MatchedPost (Orderbook.matchOrdersAux fuel b).1 := by
  induction fuel with
  | zero =>
    intro b hsc hpr hlen
    simp only [Orderbook.matchOrdersAux]
    exact Or.inl (List.eq_nil_of_length_eq_zero (by omega))
  | succ n ih =>
    intro b hsc hpr hlen
    cases hs : b.matchStep with
    | none =>
      simp only [Orderbook.matchOrdersAux, hs]
      rcases matchStep_eq_none_cases hs with hA | hB | ⟨ask, bid, hA, hB, hge⟩
      · exact Or.inr (Or.inl hA)
      · exact Or.inl hB
      · obtain ⟨bp, hbp⟩ := isNumPrice_iff.mp
          (hpr.1 bid (ModifiableBinaryHeap.peek_mem hB))
        obtain ⟨ap, hap⟩ := isNumPrice_iff.mp
          (hpr.2 ask (ModifiableBinaryHeap.peek_mem hA))
        refine Or.inr (Or.inr ⟨bid, ask, bp, ap, hB, hA, hbp, hap, ?_⟩)
        rw [hbp, hap] at hge
        exact optPriceGe_num_false.mp hge
    | some p =>
      obtain ⟨b1, evs⟩ := p
      simp only [Orderbook.matchOrdersAux, hs]
      exact ih b1 (matchStep_sideConsistent hs hsc) (matchStep_priced hs hpr)
        (by have := matchStep_size_lt hs hsc; omega)

/-! Event shapes emitted by the operations. -/

theorem order_filled_snd (b : Orderbook) (oid : Nat) (s : OrderSide) :
    (b.order_filled oid s).2 =
      [⟨b.symbol, OrderbookUpdateType.filled, none, none, none, some oid⟩] := rfl

theorem order_filled_buy_asks (b : Orderbook) (oid : Nat) :
    (b.order_filled oid OrderSide.buy).1.asks = b.asks := rfl

theorem order_filled_sell_bids (b : Orderbook) (oid : Nat) :
    (b.order_filled oid OrderSide.sell).1.bids = b.bids := rfl

/-- The side array an operation addressed by `OrderSide` works on. -/
def Orderbook.sideArr (b : Orderbook) : OrderSide → List Order
  | OrderSide.buy => b.bids
  | OrderSide.sell => b.asks

theorem update_order_snd (b : Orderbook) (oid : Nat) (nq : ℚ) (s : OrderSide) :
    (b.update_order oid nq s).2 =
      [⟨b.symbol, OrderbookUpdateType.update,
        (((b.sideArr s).filter (fun o : Order => o.id == oid)).getLast?).map
          (fun o : Order => if o.id = oid then { o with quantity := nq } else o),
        none, none, none⟩] := rfl

theorem update_order_snd_hit {b : Orderbook} {oid : Nat} (nq : ℚ) {s : OrderSide} {x : Order}
    (hx : x ∈ b.sideArr s) (hid : x.id = oid) :
    ∃ o, (b.update_order oid nq s).2 =
      [⟨b.symbol, OrderbookUpdateType.update, some o, none, none, none⟩] := by
  have hmem : x ∈ (b.sideArr s).filter (fun o : Order => o.id == oid) :=
    List.mem_filter.mpr ⟨hx, by simp only [beq_iff_eq]; exact hid⟩
  have hne := List.ne_nil_of_mem hmem
  cases hy : ((b.sideArr s).filter (fun o : Order => o.id == oid)).getLast? with
  | none => exact absurd (List.getLast?_eq_none_iff.mp hy) hne
  | some y =>
      refine ⟨if y.id = oid then { y with quantity := nq } else y, ?_⟩
      rw [update_order_snd, hy]
      rfl

theorem matchStep_evs_update {b b1 : Orderbook} {evs : List OrderbookUpdate}
    (hs : b.matchStep = some (b1, evs)) (hsc : SideConsistent b) :
    ∀ e ∈ evs, e.update_type = OrderbookUpdateType.update → ∃ o, e.order = some o := by
  obtain ⟨ask, bid, hA, hB, hge, hc⟩ := matchStep_eq_some_cases hs
  have hbidmem : bid ∈ b.bids := ModifiableBinaryHeap.peek_mem hB
  have haskmem : ask ∈ b.asks := ModifiableBinaryHeap.peek_mem hA
  have hbside : bid.side = OrderSide.buy := hsc.1 bid hbidmem
  have haside : ask.side = OrderSide.sell := hsc.2 ask haskmem
  rcases hc with ⟨_, _, hevs⟩ | ⟨_, _, hevs⟩ | ⟨_, _, hevs⟩ <;> subst hevs <;>
    intro e he htype
  · rw [List.mem_append, List.mem_append] at he
    rcases he with (he | he) | he
    · rw [order_filled_snd, List.mem_singleton] at he
      subst he
      cases htype
    · have hmem2 : ask ∈ (b.order_filled bid.id bid.side).1.sideArr ask.side := by
        rw [haside, hbside]
        show ask ∈ (b.order_filled bid.id OrderSide.buy).1.asks
        rw [order_filled_buy_asks]
        exact haskmem
      obtain ⟨o, ho⟩ := update_order_snd_hit (ask.quantity - bid.quantity) hmem2 rfl
      rw [ho, List.mem_singleton] at he
      subst he
      exact ⟨o, rfl⟩
    · rw [List.mem_singleton] at he
      subst he
      cases htype
  · rw [List.mem_append, List.mem_append] at he
    rcases he with (he | he) | he
    · rw [order_filled_snd, List.mem_singleton] at he
      subst he
      cases htype
    · have hmem2 : bid ∈ (b.order_filled ask.id ask.side).1.sideArr bid.side := by
        rw [hbside, haside]
        show bid ∈ (b.order_filled ask.id OrderSide.sell).1.bids
        rw [order_filled_sell_bids]
        exact hbidmem
      obtain ⟨o, ho⟩ := update_order_snd_hit (bid.quantity - ask.quantity) hmem2 rfl
      rw [ho, List.mem_singleton] at he
      subst he
      exact ⟨o, rfl⟩
    · rw [List.mem_singleton] at he
      subst he
      cases htype
  · rw [List.mem_append, List.mem_append] at he
    rcases he with (he | he) | he
    · rw [order_filled_snd, List.mem_singleton] at he
      subst he
      cases htype
    · rw [order_filled_snd, List.mem_singleton] at he
      subst he
      cases htype
    · rw [List.mem_singleton] at he
      subst he
      cases htype

theorem matchOrdersAux_evs_update (fuel : Nat) :
    ∀ b : Orderbook, SideConsistent b →
      ∀ e ∈ (Orderbook.matchOrdersAux fuel b).2,
        e.update_type = OrderbookUpdateType.update → ∃ o, e.order = some o := by
  induction fuel with
  | zero =>
    intro b _ e he
    cases he
  | succ n ih =>
    intro b hsc e he htype
    cases hs : b.matchStep with
    | none =>
      simp only [Orderbook.matchOrdersAux, hs] at he
      cases he
    | some p =>
      obtain ⟨b1, evs⟩ := p
      simp only [Orderbook.matchOrdersAux, hs, List.mem_append] at he
      rcases he with he | he
      · exact matchStep_evs_update hs hsc e he htype
      · exact ih b1 (matchStep_sideConsistent hs hsc) e he htype

/-! Further heap lemmas used by the cancel claims. -/

theorem retain_eq_self {l : List Order} {p : Order → Bool} (h : ∀ x ∈ l, p x = true) :
    ModifiableBinaryHeap.retain l p = l := by
  show (if (List.filter p l).length = l.length then l else
    ModifiableBinaryHeap.reheap (List.filter p l)) = l
  rw [List.filter_eq_self.mpr h]
  simp

/-- C2 (amended): for every side-consistent book whose resting orders all
carry present, finite prices, when `match_orders` returns, either the bids
side is empty, or the asks side is empty, or the best (peek) bid price is
strictly below the best (peek) ask price.  The finite-price proviso is
necessary: a NaN-priced bid can rest through the unvalidated manager, and
`match_orders` then returns normally with both sides non-empty and no such
price relation -- see the counterexample further down. -/
theorem C2_match_orders_uncrossed (b : Orderbook)
    (hsc : SideConsistent b) (hpr : PricedBook b) :
    b.match_orders.1.bids = [] ∨ b.match_orders.1.asks = [] ∨
    ∃ bid ask bp ap,
      ModifiableBinaryHeap.peek b.match_orders.1.bids = some bid ∧
      ModifiableBinaryHeap.peek b.match_orders.1.asks = some ask ∧
      bid.price = some (F64.num bp) ∧ ask.price = some (F64.num ap) ∧ bp < ap :=
  matchOrdersAux_exit _ b hsc hpr (le_refl _)

/-- A crossed one-order-per-side book used by the witnesses. -/
def wBid : Order := ⟨1, 11, 5, OrderSide.buy, 1, 1, some (F64.num 2), OrderType.limit⟩

/-- The resting ask of the witness book. -/
def wAsk : Order := ⟨2, 12, 5, OrderSide.sell, 1, 1, some (F64.num 1), OrderType.limit⟩

/-- The witness book: one bid at 2, one ask at 1 (crossed). -/
def wBook : Orderbook := ⟨5, [wBid], [wAsk]⟩

/-- Witness for C2 at the concrete crossed book `wBook`. -/
theorem C2_match_orders_uncrossed_witness :
    SideConsistent wBook ∧ PricedBook wBook ∧
      (wBook.match_orders.1.bids = [] ∨ wBook.match_orders.1.asks = [] ∨
       ∃ bid ask bp ap,
         ModifiableBinaryHeap.peek wBook.match_orders.1.bids = some bid ∧
         ModifiableBinaryHeap.peek wBook.match_orders.1.asks = some ask ∧
         bid.price = some (F64.num bp) ∧ ask.price = some (F64.num ap) ∧ bp < ap) :=
  ⟨⟨by decide, by decide⟩, ⟨by decide, by decide⟩,
    C2_match_orders_uncrossed wBook ⟨by decide, by decide⟩ ⟨by decide, by decide⟩⟩

/-- C1: when both sides are non-empty and the best (peek) bid price is at
least the best (peek) ask price, one `match_orders` step trades
`min ask.quantity bid.quantity` at the resting ask price, removes the
smaller-quantity order via `order_filled` (both when equal), shrinks the
larger one by the traded quantity via `update_order`, and emits exactly one
`NewTrades` update whose trade carries the bid id/user as buyer and the ask
id/user as seller. -/
theorem C1_match_step (b : Orderbook) (bid ask : Order) (bp ap : ℚ)
    (hB : ModifiableBinaryHeap.peek b.bids = some bid)
    (hA : ModifiableBinaryHeap.peek b.asks = some ask)
    (hbp : bid.price = some (F64.num bp)) (hap : ask.price = some (F64.num ap))
    (hge : ap ≤ bp) :
    ∃ b1 evs, b.matchStep = some (b1, evs) ∧
      evs.filterMap (fun e => e.trade) =
        [⟨b.symbol, F64.num ap, min ask.quantity bid.quantity,
          bid.id, ask.id, bid.user_id, ask.user_id⟩] ∧
      (bid.quantity < ask.quantity →
        b1 = ((b.order_filled bid.id bid.side).1.update_order ask.id
          (ask.quantity - min ask.quantity bid.quantity) ask.side).1) ∧
      (ask.quantity < bid.quantity →
        b1 = ((b.order_filled ask.id ask.side).1.update_order bid.id
          (bid.quantity - min ask.quantity bid.quantity) bid.side).1) ∧
      (ask.quantity = bid.quantity →
        b1 = ((b.order_filled ask.id ask.side).1.order_filled bid.id bid.side).1) := by
  have hgeB : optPriceGe bid.price ask.price = true := by
    rw [hbp, hap]
    exact optPriceGe_num.mpr hge
  rcases lt_trichotomy bid.quantity ask.quantity with hlt | heq | hgt
  · have hmin : min ask.quantity bid.quantity = bid.quantity :=
      min_eq_right (le_of_lt hlt)
    have hstep : b.matchStep = some
        (((b.order_filled bid.id bid.side).1.update_order ask.id
            (ask.quantity - bid.quantity) ask.side).1,
          (b.order_filled bid.id bid.side).2 ++
            ((b.order_filled bid.id bid.side).1.update_order ask.id
              (ask.quantity - bid.quantity) ask.side).2 ++
            [tradeEv b (stepTrade b bid ask bid.quantity)]) := by
      simp only [Orderbook.matchStep, hA, hB, hgeB, if_true]
      rw [if_pos hlt]
      rfl
    refine ⟨_, _, hstep, ?_, ?_, ?_, ?_⟩
    · rw [hmin]
      simp [order_filled_snd, update_order_snd, tradeEv, stepTrade, hap, unwrapF]
    · intro _
      rw [hmin]
    · intro hcon
      exact absurd hcon (not_lt.mpr (le_of_lt hlt))
    · intro hcon
      exact absurd hcon (ne_of_gt hlt)
  · have hmin : min ask.quantity bid.quantity = ask.quantity := by
      rw [heq]
      exact min_self _
    have hstep : b.matchStep = some
        (((b.order_filled ask.id ask.side).1.order_filled bid.id bid.side).1,
          (b.order_filled ask.id ask.side).2 ++
            ((b.order_filled ask.id ask.side).1.order_filled bid.id bid.side).2 ++
            [tradeEv b (stepTrade b bid ask ask.quantity)]) := by
      simp only [Orderbook.matchStep, hA, hB, hgeB, if_true]
      rw [if_neg (heq ▸ lt_irrefl _), if_neg (heq ▸ lt_irrefl _)]
      rfl
    refine ⟨_, _, hstep, ?_, ?_, ?_, ?_⟩
    · rw [hmin]
      simp [order_filled_snd, tradeEv, stepTrade, hap, unwrapF]
    · intro hcon
      exact absurd hcon (heq ▸ lt_irrefl _)
    · intro hcon
      exact absurd hcon (heq ▸ lt_irrefl _)
    · intro _
      rfl
  · have hmin : min ask.quantity bid.quantity = ask.quantity :=
      min_eq_left (le_of_lt hgt)
    have hstep : b.matchStep = some
        (((b.order_filled ask.id ask.side).1.update_order bid.id
            (bid.quantity - ask.quantity) bid.side).1,
          (b.order_filled ask.id ask.side).2 ++
            ((b.order_filled ask.id ask.side).1.update_order bid.id
              (bid.quantity - ask.quantity) bid.side).2 ++
            [tradeEv b (stepTrade b bid ask ask.quantity)]) := by
      simp only [Orderbook.matchStep, hA, hB, hgeB, if_true]
      rw [if_neg (not_lt.mpr (le_of_lt hgt)), if_pos hgt]
      rfl
    refine ⟨_, _, hstep, ?_, ?_, ?_, ?_⟩
    · rw [hmin]
      simp [order_filled_snd, update_order_snd, tradeEv, stepTrade, hap, unwrapF]
    · intro hcon
      exact absurd hcon (not_lt.mpr (le_of_lt hgt))
    · intro _
      rw [hmin]
    · intro hcon
      exact absurd hcon (ne_of_lt hgt)

/-- Witness for C1 at the concrete crossed book `wBook`. -/
theorem C1_match_step_witness :
    (ModifiableBinaryHeap.peek wBook.bids = some wBid ∧
     ModifiableBinaryHeap.peek wBook.asks = some wAsk ∧
     wBid.price = some (F64.num 2) ∧ wAsk.price = some (F64.num 1) ∧ (1 : ℚ) ≤ 2) ∧
    ∃ b1 evs, wBook.matchStep = some (b1, evs) ∧
      evs.filterMap (fun e => e.trade) =
        [⟨wBook.symbol, F64.num 1, min wAsk.quantity wBid.quantity,
          wBid.id, wAsk.id, wBid.user_id, wAsk.user_id⟩] ∧
      (wBid.quantity < wAsk.quantity →
        b1 = ((wBook.order_filled wBid.id wBid.side).1.update_order wAsk.id
          (wAsk.quantity - min wAsk.quantity wBid.quantity) wAsk.side).1) ∧
      (wAsk.quantity < wBid.quantity →
        b1 = ((wBook.order_filled wAsk.id wAsk.side).1.update_order wBid.id
          (wBid.quantity - min wAsk.quantity wBid.quantity) wBid.side).1) ∧
      (wAsk.quantity = wBid.quantity →
        b1 = ((wBook.order_filled wAsk.id wAsk.side).1.order_filled
          wBid.id wBid.side).1) :=
  ⟨⟨rfl, rfl, rfl, rfl, by decide⟩,
    C1_match_step wBook wBid wAsk 2 1 rfl rfl rfl rfl (by decide)⟩

/-- C6: cancelling an id with no resting order on the addressed side leaves
the book state unchanged while still emitting the `Cancel { cancel_id }`
update; consequently cancelling the same id twice in a row produces the same
book state as cancelling it once. -/
theorem cancel_order_fst_eq_self {b : Orderbook} {oid : Nat} {s : OrderSide}
    (h : ∀ o ∈ b.sideArr s, o.id ≠ oid) : (b.cancel_order oid s).1 = b := by
  cases s
  · have hall : ∀ x ∈ b.bids, (fun o : Order => o.id != oid) x = true := by
      intro x hx
      simpa using h x hx
    show { b with bids := ModifiableBinaryHeap.retain b.bids (fun o => o.id != oid) } = b
    rw [retain_eq_self hall]
  · have hall : ∀ x ∈ b.asks, (fun o : Order => o.id != oid) x = true := by
      intro x hx
      simpa using h x hx
    show { b with asks := ModifiableBinaryHeap.retain b.asks (fun o => o.id != oid) } = b
    rw [retain_eq_self hall]

theorem cancel_order_clears (b : Orderbook) (oid : Nat) (s : OrderSide) :
    ∀ o ∈ (b.cancel_order oid s).1.sideArr s, o.id ≠ oid := by
  intro o ho
  have hf : o ∈ List.filter (fun x : Order => x.id != oid) (b.sideArr s) := by
    cases s
    · exact ModifiableBinaryHeap.mem_retain.mp ho
    · exact ModifiableBinaryHeap.mem_retain.mp ho
  have hp := List.of_mem_filter hf
  simpa using hp

theorem C6_cancel_missing_id_noop (b : Orderbook) (oid : Nat) (s : OrderSide)
    (habs : ∀ o ∈ b.sideArr s, o.id ≠ oid) :
    (b.cancel_order oid s).1 = b ∧
      (b.cancel_order oid s).2 =
        [⟨b.symbol, OrderbookUpdateType.cancel, none, none, some oid, none⟩] ∧
      ∀ (c : Orderbook) (i : Nat) (t : OrderSide),
        ((c.cancel_order i t).1.cancel_order i t).1 = (c.cancel_order i t).1 := by
  refine ⟨cancel_order_fst_eq_self habs, rfl, ?_⟩
  intro c i t
  exact cancel_order_fst_eq_self (cancel_order_clears c i t)

/-- Witness for C6: cancelling the absent id 99 on the bid side of `wBook`. -/
theorem C6_cancel_missing_id_noop_witness :
    (∀ o ∈ wBook.sideArr OrderSide.buy, o.id ≠ 99) ∧
      ((wBook.cancel_order 99 OrderSide.buy).1 = wBook ∧
        (wBook.cancel_order 99 OrderSide.buy).2 =
          [⟨wBook.symbol, OrderbookUpdateType.cancel, none, none, some 99, none⟩] ∧
        ∀ (c : Orderbook) (i : Nat) (t : OrderSide),
          ((c.cancel_order i t).1.cancel_order i t).1 = (c.cancel_order i t).1) :=
  ⟨by decide, C6_cancel_missing_id_noop wBook 99 OrderSide.buy (by decide)⟩

/-- C10: a single `cancel_order` removes every resting order bearing the id
from the addressed side, even when several of them share that id (the result
is a permutation of the array filtered by id), and the opposite side is left
untouched. -/
theorem C10_cancel_removes_all_dups (b : Orderbook) (oid : Nat) (s : OrderSide) :
    List.Perm ((b.cancel_order oid s).1.sideArr s)
        ((b.sideArr s).filter (fun o : Order => o.id != oid)) ∧
      (∀ o ∈ (b.cancel_order oid s).1.sideArr s, o.id ≠ oid) ∧
      (b.cancel_order oid OrderSide.buy).1.asks = b.asks ∧
      (b.cancel_order oid OrderSide.sell).1.bids = b.bids := by
  refine ⟨?_, ?_, rfl, rfl⟩
  · cases s
    · exact ModifiableBinaryHeap.retain_perm b.bids _
    · exact ModifiableBinaryHeap.retain_perm b.asks _
  · exact cancel_order_clears b oid s

/-! C3: the resting-quantity invariant. -/

theorem modify_pres {P : Order → Prop} {l : List Order} {f : Order → Order}
    (hf : ∀ o, P o → P (f o)) (h : ∀ o ∈ l, P o) :
    ∀ o ∈ ModifiableBinaryHeap.modify l f, P o := by
  intro o ho
  obtain ⟨x, hx, hox⟩ := ModifiableBinaryHeap.mem_modify ho
  subst hox
  exact hf x (h x hx)

theorem place_order_pos {b : Orderbook} {o : Order} (hpos : PosBook b)
    (ho : 0 < o.quantity) : PosBook (b.place_order o).1 := by
  cases hs : o.side
  · have h1 : PosBook { b with bids := ModifiableBinaryHeap.push b.bids o } := by
      refine ⟨fun x hx => ?_, hpos.2⟩
      rcases ModifiableBinaryHeap.mem_push hx with hx' | hx'
      · exact hpos.1 x hx'
      · subst hx'
        exact ho
    simp only [Orderbook.place_order, hs]
    exact matchOrdersAux_pos _ _ h1
  · have h1 : PosBook { b with asks := ModifiableBinaryHeap.push b.asks o } := by
      refine ⟨hpos.1, fun x hx => ?_⟩
      rcases ModifiableBinaryHeap.mem_push hx with hx' | hx'
      · exact hpos.2 x hx'
      · subst hx'
        exact ho
    simp only [Orderbook.place_order, hs]
    exact matchOrdersAux_pos _ _ h1

theorem update_order_pos {b : Orderbook} {q : ℚ} (oid : Nat) (s : OrderSide)
    (hpos : PosBook b) (hq : 0 < q) : PosBook (b.update_order oid q s).1 :=
  update_order_pres oid q s (fun _ _ => hq) (fun _ _ => hq) hpos.1 hpos.2

theorem marketBuyAux_pos (o : Order) (fuel : Nat) :
    ∀ (b : Orderbook) (q : ℚ), PosBook b →
      PosBook (Orderbook.marketBuyAux o fuel b q).1 := by
  induction fuel with
  | zero =>
    intro b q h
    exact h
  | succ n ih =>
    intro b q h
    cases hA : ModifiableBinaryHeap.peek b.asks with
    | none => simpa only [Orderbook.marketBuyAux, hA] using h
    | some ask =>
      by_cases hle : ask.quantity ≤ q
      · simp only [Orderbook.marketBuyAux, hA, if_pos hle]
        exact ih _ _ (order_filled_pres ask.id ask.side h.1 h.2)
      · simp only [Orderbook.marketBuyAux, hA, if_neg hle]
        exact update_order_pos ask.id ask.side h (sub_pos.mpr (not_le.mp hle))

theorem marketSellAux_pos (o : Order) (fuel : Nat) :
    ∀ (b : Orderbook) (q : ℚ), PosBook b →
      PosBook (Orderbook.marketSellAux o fuel b q).1 := by
  induction fuel with
  | zero =>
    intro b q h
    exact h
  | succ n ih =>
    intro b q h
    cases hB : ModifiableBinaryHeap.peek b.bids with
    | none => simpa only [Orderbook.marketSellAux, hB] using h
    | some bid =>
      by_cases hle : bid.quantity ≤ q
      · simp only [Orderbook.marketSellAux, hB, if_pos hle]
        exact ih _ _ (order_filled_pres bid.id bid.side h.1 h.2)
      · simp only [Orderbook.marketSellAux, hB, if_neg hle]
        exact update_order_pos bid.id bid.side h (sub_pos.mpr (not_le.mp hle))

/-- The zero-quantity limit order of the C3 counterexample. -/
def zeroQtyOrder : Order := ⟨7, 17, 5, OrderSide.buy, 0, 0, some (F64.num 1), OrderType.limit⟩

/-- C3 counterexample: `add_order` accepts a caller-supplied limit order of
quantity 0 and leaves it resting on the bid side, so the resting-quantity
invariant is not preserved for arbitrary caller-supplied arguments (the same
happens with `amend_order_quantity` and a non-positive new quantity). -/
theorem C3_counterexample :
    ((Orderbook.new 5).add_order zeroQtyOrder).1.bids = [zeroQtyOrder] ∧
      ¬ (0 : ℚ) < zeroQtyOrder.quantity := by
  constructor
  · rfl
  · decide

/-- C3 (amended): every resting order on either side has quantity strictly
greater than zero, and this is preserved by every public operation provided
the caller-supplied quantities (`add_order`/`place_order` orders,
`amend_order_quantity` and `update_order` new quantities) are strictly
positive; with unrestricted arguments the invariant fails, see the
counterexample. -/
theorem C3_amended_pos_invariant (b : Orderbook) (hpos : PosBook b) :
    (∀ o : Order, 0 < o.quantity → PosBook (b.add_order o).1) ∧
    (∀ o : Order, 0 < o.quantity → PosBook (b.place_order o).1) ∧
    (∀ (oid : Nat) (s : OrderSide), PosBook (b.cancel_order oid s).1) ∧
    (∀ (oid : Nat) (p : F64) (s : OrderSide), PosBook (b.amend_order_price oid p s).1) ∧
    (∀ (oid : Nat) (q : ℚ) (s : OrderSide), 0 < q →
      PosBook (b.amend_order_quantity oid q s).1) ∧
    (∀ (oid : Nat) (q : ℚ) (s : OrderSide), 0 < q → PosBook (b.update_order oid q s).1) ∧
    PosBook b.match_orders.1 := by
  refine ⟨?_, fun o ho => place_order_pos hpos ho, ?_, ?_, ?_, ?_, ?_⟩
  · intro o ho
    cases ht : o.order_type with
    | limit =>
      simp only [Orderbook.add_order, ht]
      exact place_order_pos hpos ho
    | market =>
      by_cases hs : o.side = OrderSide.buy
      · simp only [Orderbook.add_order, ht, hs, if_pos rfl]
        exact marketBuyAux_pos o _ b o.quantity hpos
      · simp only [Orderbook.add_order, ht, if_neg hs]
        exact marketSellAux_pos o _ b o.quantity hpos
  · intro oid s
    exact cancel_order_pres oid s hpos.1 hpos.2
  · intro oid p s
    cases s
    · simp only [Orderbook.amend_order_price]
      refine matchOrdersAux_pos _ _ ⟨modify_pres (fun o hP => ?_) hpos.1, hpos.2⟩
      by_cases hid : o.id = oid
      · rw [if_pos hid]
        exact hP
      · rw [if_neg hid]
        exact hP
    · simp only [Orderbook.amend_order_price]
      refine matchOrdersAux_pos _ _ ⟨hpos.1, modify_pres (fun o hP => ?_) hpos.2⟩
      by_cases hid : o.id = oid
      · rw [if_pos hid]
        exact hP
      · rw [if_neg hid]
        exact hP
  · intro oid q s hq
    simp only [Orderbook.amend_order_quantity]
    exact matchOrdersAux_pos _ _ (update_order_pos oid s hpos hq)
  · intro oid q s hq
    exact update_order_pos oid s hpos hq
  · exact matchOrdersAux_pos _ _ hpos

/-- Witness for the amended C3 at the concrete book `wBook`. -/
theorem C3_amended_pos_invariant_witness :
    PosBook wBook ∧ PosBook wBook.match_orders.1 :=
  ⟨⟨by decide, by decide⟩,
    (C3_amended_pos_invariant wBook ⟨by decide, by decide⟩).2.2.2.2.2.2⟩

/-! C5 and C4: the manager boundary. -/

theorem findBook_insertBook_self (books : List (Nat × Orderbook)) (s : Nat) (bk : Orderbook) :
    findBook (insertBook books s bk) s = some bk := by
  induction books with
  | nil => simp [insertBook, findBook]
  | cons kv rest ih =>
    obtain ⟨k, v⟩ := kv
    by_cases hk : k = s
    · subst hk
      simp [insertBook, findBook]
    · simp only [insertBook, if_neg hk, findBook]
      exact ih

/-- The manager of the C5 counterexample: it already owns a populated book for
symbol 5 (one resting bid, one resting ask). -/
def wManager : OrderbooksManager := ⟨[(5, wBook)]⟩

/-- C5 counterexample: calling `new_orderbook(5)` on a manager that already
has a book for symbol 5 does not fail (the function cannot return an error or
assert); it silently replaces the populated book with a fresh empty one,
discarding its resting orders. -/
theorem C5_counterexample :
    findBook wManager.orderbooks 5 = some wBook ∧ wBook.bids ≠ [] ∧
      (wManager.new_orderbook 5).orderbooks = [(5, Orderbook.new 5)] ∧
      findBook (wManager.new_orderbook 5).orderbooks 5 = some (Orderbook.new 5) :=
  ⟨rfl, by decide, rfl, rfl⟩

/-- C5 (amended): `new_orderbook(s)` never fails on a duplicate symbol;
it unconditionally installs a fresh empty book for `s`, overwriting any book
already present. -/
theorem C5_amended_new_orderbook_overwrites (m : OrderbooksManager) (s : Nat) :
    findBook (m.new_orderbook s).orderbooks s = some (Orderbook.new s) :=
  findBook_insertBook_self m.orderbooks s (Orderbook.new s)

/-- The NaN-priced limit order of the C4 counterexample. -/
def nanOrder : Order := ⟨8, 18, 5, OrderSide.buy, 1, 1, some F64.nan, OrderType.limit⟩

/-- The manager owning an empty book for symbol 5. -/
def emptyManager : OrderbooksManager := ⟨[(5, Orderbook.new 5)]⟩

/-- C4 counterexample: the manager performs no price validation at all:
submitting a NaN-priced order through `OrderbooksManager::add_order` returns
`Ok` (no InvalidInput error exists anywhere in the code) and the addressed
book is changed: the NaN-priced order now rests on its bid side. -/
theorem C4_counterexample :
    emptyManager.add_order nanOrder =
      Except.ok (⟨[(5, ⟨5, [nanOrder], []⟩)]⟩,
        [⟨5, OrderbookUpdateType.new, some nanOrder, none, none, none⟩,
         ⟨5, OrderbookUpdateType.place, some nanOrder, none, none, none⟩]) ∧
      nanOrder.price = some F64.nan :=
  ⟨rfl, rfl⟩

/-- C4 (amended): the manager rejects nothing at its boundary: for every
order, NaN-priced ones included, `add_order` forwards to the book and returns
`Ok` whenever a book for `order.symbol` exists, and returns the `NotFound`
error -- the only error the manager can produce -- otherwise. -/
theorem C4_amended_no_nan_validation (m : OrderbooksManager) (o : Order) :
    (findBook m.orderbooks o.symbol = none →
      m.add_order o = Except.error ManagerError.notFound) ∧
    (∀ bk, findBook m.orderbooks o.symbol = some bk →
      m.add_order o = Except.ok
        (⟨insertBook m.orderbooks o.symbol (bk.add_order o).1⟩, (bk.add_order o).2)) := by
  constructor
  · intro h
    simp only [OrderbooksManager.add_order, h]
  · intro bk h
    simp only [OrderbooksManager.add_order, h]

/-- Witness for the amended C4: the NaN order is forwarded and accepted. -/
theorem C4_amended_no_nan_validation_witness :
    findBook emptyManager.orderbooks nanOrder.symbol = some (Orderbook.new 5) ∧
      emptyManager.add_order nanOrder =
        Except.ok (⟨insertBook emptyManager.orderbooks nanOrder.symbol
          ((Orderbook.new 5).add_order nanOrder).1⟩,
          ((Orderbook.new 5).add_order nanOrder).2) :=
  ⟨rfl, (C4_amended_no_nan_validation emptyManager nanOrder).2 (Orderbook.new 5) rfl⟩

/-- C9: amending the price of an id with no matching order on the addressed
side of a side-consistent, finitely-priced book emits exactly one `Update`
event whose order field is `none` and which carries no trade, cancel id or
filled id: it is the first emitted event, and every later event of the call
that is an `Update` carries a mutated order. -/
theorem C9_amend_price_missing_id (b : Orderbook) (oid : Nat) (p : F64) (s : OrderSide)
    (hsc : SideConsistent b) (hpr : PricedBook b)
    (habs : ∀ o ∈ b.sideArr s, o.id ≠ oid) :
    ∃ rest, (b.amend_order_price oid p s).2 =
        ⟨b.symbol, OrderbookUpdateType.update, none, none, none, none⟩ :: rest ∧
      ∀ e ∈ rest, e.update_type = OrderbookUpdateType.update → ∃ o, e.order = some o := by
  cases s
  · have hfilter : b.bids.filter (fun o : Order => o.id == oid) = [] :=
      List.filter_eq_nil_iff.mpr (fun a ha => by simpa using habs a ha)
    simp only [Orderbook.amend_order_price]
    have hnone : ((b.bids.filter (fun o : Order => o.id == oid)).getLast?).map
        (fun o : Order => if o.id = oid then { o with price := some p } else o) = none := by
      rw [hfilter]
      rfl
    refine ⟨_, by rw [hnone], ?_⟩
    intro e he htype
    have hscb1 : SideConsistent
        { b with bids := (ModifiableBinaryHeap.modify b.bids
            (fun o => if o.id = oid then { o with price := some p } else o)) } := by
      refine ⟨modify_pres (fun o hP => ?_) hsc.1, hsc.2⟩
      by_cases hid : o.id = oid
      · rw [if_pos hid]
        exact hP
      · rw [if_neg hid]
        exact hP
    exact matchOrdersAux_evs_update _ _ hscb1 e he htype
  · have hfilter : b.asks.filter (fun o : Order => o.id == oid) = [] :=
      List.filter_eq_nil_iff.mpr (fun a ha => by simpa using habs a ha)
    simp only [Orderbook.amend_order_price]
    have hnone : ((b.asks.filter (fun o : Order => o.id == oid)).getLast?).map
        (fun o : Order => if o.id = oid then { o with price := some p } else o) = none := by
      rw [hfilter]
      rfl
    refine ⟨_, by rw [hnone], ?_⟩
    intro e he htype
    have hscb1 : SideConsistent
        { b with asks := (ModifiableBinaryHeap.modify b.asks
            (fun o => if o.id = oid then { o with price := some p } else o)) } := by
      refine ⟨hsc.1, modify_pres (fun o hP => ?_) hsc.2⟩
      by_cases hid : o.id = oid
      · rw [if_pos hid]
        exact hP
      · rw [if_neg hid]
        exact hP
    exact matchOrdersAux_evs_update _ _ hscb1 e he htype

/-- Witness for C9: amending the absent id 99 on the bid side of `wBook`. -/
theorem C9_amend_price_missing_id_witness :
    (SideConsistent wBook ∧ PricedBook wBook ∧
      (∀ o ∈ wBook.sideArr OrderSide.buy, o.id ≠ 99)) ∧
    ∃ rest, (wBook.amend_order_price 99 (F64.num 3) OrderSide.buy).2 =
        ⟨wBook.symbol, OrderbookUpdateType.update, none, none, none, none⟩ :: rest ∧
      ∀ e ∈ rest, e.update_type = OrderbookUpdateType.update → ∃ o, e.order = some o :=
  ⟨⟨⟨by decide, by decide⟩, ⟨by decide, by decide⟩, by decide⟩,
    C9_amend_price_missing_id wBook 99 (F64.num 3) OrderSide.buy
      ⟨by decide, by decide⟩ ⟨by decide, by decide⟩ (by decide)⟩

/-! C8: the summary projection. -/

/-- Total resting quantity of a side array. -/
def sumQty (l : List Order) : ℚ := (l.map Order.quantity).sum

theorem cumTriples_length (l : List Order) (acc : ℚ) :
    (cumTriples l acc).length = l.length := by
  induction l generalizing acc with
  | nil => rfl
  | cons x xs ih =>
    simp only [cumTriples, List.length_cons]
    rw [ih]

theorem cumTriples_getElem? (l : List Order) (acc : ℚ) (i : Nat) (o : Order)
    (ho : l[i]? = some o) :
    (cumTriples l acc)[i]? =
      some (unwrapF o.price, o.quantity, acc + sumQty (l.take (i + 1))) := by
  induction l generalizing acc i with
  | nil => cases i <;> cases ho
  | cons x xs ih =>
    cases i with
    | zero =>
      have hx : x = o := by simpa using ho
      subst hx
      simp [cumTriples, sumQty]
    | succ n =>
      have ho' : xs[n]? = some o := by simpa using ho
      simp only [cumTriples, List.getElem?_cons_succ]
      rw [ih (acc + x.quantity) n ho']
      simp [sumQty, add_assoc]

theorem heapLe_buy_num {a c : Order} {pa pc : ℚ} (ha : a.side = OrderSide.buy)
    (hpa : a.price = some (F64.num pa)) (hpc : c.price = some (F64.num pc)) :
    Order.heapLe a c = true ↔ pa ≤ pc := by
  rcases lt_trichotomy pa pc with h | h | h
  · simp [Order.heapLe, Order.cmpO, ha, hpa, hpc, optPricePCmp, F64.pcmp,
      qcmp_lt_of h, le_of_lt h]
  · subst h
    simp [Order.heapLe, Order.cmpO, ha, hpa, hpc, optPricePCmp, F64.pcmp, qcmp_eq_self]
  · simp [Order.heapLe, Order.cmpO, ha, hpa, hpc, optPricePCmp, F64.pcmp,
      qcmp_gt_of h, not_le.mpr h]

/-- A buy order with a present finite price: the shape for which the heap
comparator agrees with the numeric price order. -/
def GoodBuy (o : Order) : Prop :=
  o.side = OrderSide.buy ∧ ∃ q, o.price = some (F64.num q)

theorem heapLe_total_good {a c : Order} (ha : GoodBuy a) (hc : GoodBuy c) :
    Order.heapLe a c = true ∨ Order.heapLe c a = true := by
  obtain ⟨has, pa, hpa⟩ := ha
  obtain ⟨hcs, pc, hpc⟩ := hc
  rcases le_total pa pc with h | h
  · exact Or.inl ((heapLe_buy_num has hpa hpc).mpr h)
  · exact Or.inr ((heapLe_buy_num hcs hpc hpa).mpr h)

theorem heapLe_trans_good {a c d : Order} (ha : GoodBuy a) (hc : GoodBuy c)
    (hd : GoodBuy d) (h1 : Order.heapLe a c = true) (h2 : Order.heapLe c d = true) :
    Order.heapLe a d = true := by
  obtain ⟨has, pa, hpa⟩ := ha
  obtain ⟨hcs, pc, hpc⟩ := hc
  obtain ⟨hds, pd, hpd⟩ := hd
  exact (heapLe_buy_num has hpa hpd).mpr
    (le_trans ((heapLe_buy_num has hpa hpc).mp h1) ((heapLe_buy_num hcs hpc hpd).mp h2))

theorem pairwise_insertByOrd {x : Order} {l : List Order}
    (hgx : GoodBuy x) (hgl : ∀ o ∈ l, GoodBuy o)
    (hp : List.Pairwise (fun a c => Order.heapLe a c = true) l) :
    List.Pairwise (fun a c => Order.heapLe a c = true) (insertByOrd x l) := by
  induction l with
  | nil => simp [insertByOrd]
  | cons y ys ih =>
    by_cases hxy : Order.heapLe x y = true
    · simp only [insertByOrd, if_pos hxy]
      refine List.Pairwise.cons (fun c hc => ?_) hp
      rcases List.mem_cons.mp hc with hc' | hc'
      · subst hc'
        exact hxy
      · exact heapLe_trans_good hgx (hgl y (by simp)) (hgl c (by simp [hc']))
          hxy ((List.pairwise_cons.mp hp).1 c hc')
    · have hxyB : Order.heapLe x y ≠ true := hxy
      simp only [insertByOrd, if_neg hxyB]
      have hyx : Order.heapLe y x = true := by
        rcases heapLe_total_good hgx (hgl y (by simp)) with h | h
        · exact absurd h hxy
        · exact h
      refine List.Pairwise.cons (fun c hc => ?_)
        (ih (fun o ho => hgl o (by simp [ho])) (List.pairwise_cons.mp hp).2)
      have hmem := (insertByOrd_perm x ys).mem_iff.mp hc
      rcases List.mem_cons.mp hmem with hc' | hc'
      · subst hc'
        exact hyx
      · exact (List.pairwise_cons.mp hp).1 c hc'

theorem pairwise_sortByOrd (l : List Order) (hgood : ∀ o ∈ l, GoodBuy o) :
    List.Pairwise (fun a c => Order.heapLe a c = true) (sortByOrd l) := by
  induction l with
  | nil => simp [sortByOrd]
  | cons x xs ih =>
    have hgood' : ∀ o ∈ sortByOrd xs, GoodBuy o := fun o ho =>
      hgood o (by simp [(sortByOrd_perm xs).mem_iff.mp ho])
    exact pairwise_insertByOrd (hgood x (by simp)) hgood'
      (ih (fun o ho => hgood o (by simp [ho])))

/-- C8: `summarize_orderbook_per_price_level` returns `(bids, mid, asks)`
where the asks list the resting asks in heap-array (`into_vec`, unsorted)
order, each as `(price, quantity, running cumulative quantity)`; the bids are
the resting bids sorted worst-to-best (ascending under the heap comparator,
which on priced buys is ascending price) with cumulative sums accumulated in
that order and then reversed, so the output reads best-to-worst; and the
middle element is `(best_bid.price + best_ask.price) / 2` when both sides are
non-empty and `0.0` otherwise. -/
theorem C8_summarize (b : Orderbook) (hsc : SideConsistent b) (hpr : PricedBook b) :
    (∀ (i : Nat) (o : Order), b.asks[i]? = some o →
      (b.summarize_orderbook_per_price_level).2.2[i]? =
        some (unwrapF o.price, o.quantity, sumQty (b.asks.take (i + 1)))) ∧
    (b.summarize_orderbook_per_price_level).2.2.length = b.asks.length ∧
    (b.summarize_orderbook_per_price_level).1 =
      (cumTriples (ModifiableBinaryHeap.iter_sorted b.bids) 0).reverse ∧
    List.Perm (ModifiableBinaryHeap.iter_sorted b.bids) b.bids ∧
    List.Pairwise (fun a c : Order => Order.heapLe a c = true)
      (ModifiableBinaryHeap.iter_sorted b.bids) ∧
    (∀ a c : Order, ∀ pa pc : ℚ, a.side = OrderSide.buy →
      a.price = some (F64.num pa) → c.price = some (F64.num pc) →
      Order.heapLe a c = true → pa ≤ pc) ∧
    (∀ bid ask : Order, ∀ bp ap : ℚ, ModifiableBinaryHeap.peek b.bids = some bid →
      ModifiableBinaryHeap.peek b.asks = some ask →
      bid.price = some (F64.num bp) → ask.price = some (F64.num ap) →
      (b.summarize_orderbook_per_price_level).2.1 = F64.num ((bp + ap) / 2)) ∧
    ((b.bids = [] ∨ b.asks = []) →
      (b.summarize_orderbook_per_price_level).2.1 = F64.num 0) := by
  refine ⟨?_, ?_, rfl, sortByOrd_perm b.bids, ?_, ?_, ?_, ?_⟩
  · intro i o ho
    have := cumTriples_getElem? b.asks 0 i o ho
    simpa using this
  · exact cumTriples_length b.asks 0
  · refine pairwise_sortByOrd b.bids (fun o ho => ⟨hsc.1 o ho, ?_⟩)
    exact isNumPrice_iff.mp (hpr.1 o ho)
  · intro a c pa pc has hpa hpc hle
    exact (heapLe_buy_num has hpa hpc).mp hle
  · intro bid ask bp ap hB hA hbp hap
    show Orderbook.get_mid_price b = F64.num ((bp + ap) / 2)
    simp [Orderbook.get_mid_price, hB, hA, hbp, hap, unwrapF, F64.addF, F64.div2]
  · intro hempty
    show Orderbook.get_mid_price b = F64.num 0
    rcases hempty with h | h
    · simp [Orderbook.get_mid_price, h, ModifiableBinaryHeap.peek]
    · have hA : ModifiableBinaryHeap.peek b.asks = none := by
        rw [h]
        rfl
      cases hB : ModifiableBinaryHeap.peek b.bids <;>
        simp [Orderbook.get_mid_price, hA, hB]

/-- Witness for C8 at the concrete book `wBook`. -/
theorem C8_summarize_witness :
    (SideConsistent wBook ∧ PricedBook wBook) ∧
    ((∀ (i : Nat) (o : Order), wBook.asks[i]? = some o →
      (wBook.summarize_orderbook_per_price_level).2.2[i]? =
        some (unwrapF o.price, o.quantity, sumQty (wBook.asks.take (i + 1)))) ∧
    (wBook.summarize_orderbook_per_price_level).2.2.length = wBook.asks.length ∧
    (wBook.summarize_orderbook_per_price_level).1 =
      (cumTriples (ModifiableBinaryHeap.iter_sorted wBook.bids) 0).reverse ∧
    List.Perm (ModifiableBinaryHeap.iter_sorted wBook.bids) wBook.bids ∧
    List.Pairwise (fun a c : Order => Order.heapLe a c = true)
      (ModifiableBinaryHeap.iter_sorted wBook.bids) ∧
    (∀ a c : Order, ∀ pa pc : ℚ, a.side = OrderSide.buy →
      a.price = some (F64.num pa) → c.price = some (F64.num pc) →
      Order.heapLe a c = true → pa ≤ pc) ∧
    (∀ bid ask : Order, ∀ bp ap : ℚ, ModifiableBinaryHeap.peek wBook.bids = some bid →
      ModifiableBinaryHeap.peek wBook.asks = some ask →
      bid.price = some (F64.num bp) → ask.price = some (F64.num ap) →
      (wBook.summarize_orderbook_per_price_level).2.1 = F64.num ((bp + ap) / 2)) ∧
    ((wBook.bids = [] ∨ wBook.asks = []) →
      (wBook.summarize_orderbook_per_price_level).2.1 = F64.num 0)) :=
  ⟨⟨⟨by decide, by decide⟩, ⟨by decide, by decide⟩⟩,
    C8_summarize wBook ⟨by decide, by decide⟩ ⟨by decide, by decide⟩⟩

/-! C7: market-order execution. -/

/-- Sum of the traded quantities carried by the trade events of a list. -/
def tradesSum (evs : List OrderbookUpdate) : ℚ :=
  ((evs.filterMap (fun e => e.trade)).map Trade.quantity).sum

theorem tradesSum_append (l1 l2 : List OrderbookUpdate) :
    tradesSum (l1 ++ l2) = tradesSum l1 + tradesSum l2 := by
  simp [tradesSum, List.filterMap_append]

theorem sumQty_nonneg {l : List Order} (h : ∀ o ∈ l, 0 < o.quantity) : 0 ≤ sumQty l := by
  induction l with
  | nil => simp [sumQty]
  | cons x xs ih =>
    have h1 := h x (by simp)
    have h2 := ih (fun o ho => h o (by simp [ho]))
    simp only [sumQty, List.map_cons, List.sum_cons] at h2 ⊢
    linarith

theorem sumQty_perm {l1 l2 : List Order} (h : List.Perm l1 l2) :
    sumQty l1 = sumQty l2 :=
  (h.map Order.quantity).sum_eq

theorem sumQty_cons (x : Order) (xs : List Order) :
    sumQty (x :: xs) = x.quantity + sumQty xs := by
  simp [sumQty]

theorem add_min_sub (a q s : ℚ) : a + min (q - a) s = min q (a + s) := by
  rcases le_total (q - a) s with h | h
  · rw [min_eq_left h, min_eq_left (by linarith)]
    ring
  · rw [min_eq_right h, min_eq_right (by linarith)]

theorem retain_cons_self_perm {x : Order} {xs : List Order}
    (hnd : ((x :: xs).map Order.id).Nodup) :
    List.Perm (ModifiableBinaryHeap.retain (x :: xs) (fun o => o.id != x.id)) xs := by
  rw [List.map_cons] at hnd
  obtain ⟨hx, hxs⟩ := List.nodup_cons.mp hnd
  have hfilter : (x :: xs).filter (fun o : Order => o.id != x.id) = xs := by
    rw [List.filter_cons_of_neg (by simp)]
    apply List.filter_eq_self.mpr
    intro a ha
    simp only [bne_iff_ne, ne_eq, decide_eq_true_eq]
    intro heq
    exact hx (heq ▸ List.mem_map_of_mem Order.id ha)
  have hperm := ModifiableBinaryHeap.retain_perm (x :: xs) (fun o => o.id != x.id)
  rw [hfilter] at hperm
  exact hperm

theorem mem_map_id_of_modify {l : List Order} {f : Order → Order}
    (hf : ∀ o, (f o).id = o.id) {x : Order}
    (hx : x ∈ ModifiableBinaryHeap.modify l f) : x.id ∈ l.map Order.id := by
  obtain ⟨y, hy, hxy⟩ := ModifiableBinaryHeap.mem_modify hx
  subst hxy
  rw [hf y]
  exact List.mem_map_of_mem Order.id hy

theorem marketBuyAux_succ_none {o : Order} {n : Nat} {b : Orderbook} {q : ℚ}
    (hA : ModifiableBinaryHeap.peek b.asks = none) :
    Orderbook.marketBuyAux o (n + 1) b q = (b, []) := by
  simp only [Orderbook.marketBuyAux, hA]

theorem marketBuyAux_succ_fill {o : Order} {n : Nat} {b : Orderbook} {q : ℚ} {ask : Order}
    (hA : ModifiableBinaryHeap.peek b.asks = some ask) (hle : ask.quantity ≤ q) :
    Orderbook.marketBuyAux o (n + 1) b q =
      ((Orderbook.marketBuyAux o n (b.order_filled ask.id ask.side).1 (q - ask.quantity)).1,
        (b.order_filled ask.id ask.side).2 ++
          [⟨b.symbol, OrderbookUpdateType.newTrades, none,
            some ⟨b.symbol, unwrapF ask.price, ask.quantity, o.id, ask.id, o.user_id,
              ask.user_id⟩, none, none⟩] ++
          (Orderbook.marketBuyAux o n (b.order_filled ask.id ask.side).1
            (q - ask.quantity)).2) := by
  simp only [Orderbook.marketBuyAux, hA, if_pos hle]

theorem marketBuyAux_succ_part {o : Order} {n : Nat} {b : Orderbook} {q : ℚ} {ask : Order}
    (hA : ModifiableBinaryHeap.peek b.asks = some ask) (hle : ¬ ask.quantity ≤ q) :
    Orderbook.marketBuyAux o (n + 1) b q =
      ((b.update_order ask.id (ask.quantity - q) ask.side).1,
        (b.update_order ask.id (ask.quantity - q) ask.side).2 ++
          [⟨b.symbol, OrderbookUpdateType.newTrades, none,
            some ⟨b.symbol, unwrapF ask.price, q, o.id, ask.id, o.user_id,
              ask.user_id⟩, none, none⟩]) := by
  simp only [Orderbook.marketBuyAux, hA, if_neg hle]

theorem marketBuyAux_spec (o : Order) (fuel : Nat) :
    ∀ (b : Orderbook) (q : ℚ),
      SideConsistent b → PosBook b → (b.asks.map Order.id).Nodup → 0 ≤ q →
      b.asks.length ≤ fuel →
      (Orderbook.marketBuyAux o fuel b q).1.bids = b.bids ∧
      (∀ x ∈ (Orderbook.marketBuyAux o fuel b q).1.asks, x.id ∈ b.asks.map Order.id) ∧
      tradesSum (Orderbook.marketBuyAux o fuel b q).2 = min q (sumQty b.asks) ∧
      (sumQty b.asks ≤ q → (Orderbook.marketBuyAux o fuel b q).1.asks = []) ∧
      (∀ e ∈ (Orderbook.marketBuyAux o fuel b q).2,
        e.update_type ≠ OrderbookUpdateType.place) := by
  induction fuel with
  | zero =>
    intro b q hsc hpos hnd hq hlen
    have hasks : b.asks = [] := List.eq_nil_of_length_eq_zero (by omega)
    refine ⟨rfl, ?_, ?_, fun _ => hasks, ?_⟩
    · intro x hx
      exact absurd (hasks ▸ hx) (List.not_mem_nil x)
    · rw [hasks]
      simp [Orderbook.marketBuyAux, tradesSum, sumQty, min_eq_right hq]
    · intro e he
      cases he
  | succ n ih =>
    intro b q hsc hpos hnd hq hlen
    cases hasks : b.asks with
    | nil =>
      have hA : ModifiableBinaryHeap.peek b.asks = none := by
        rw [hasks]
        rfl
      rw [marketBuyAux_succ_none hA]
      refine ⟨rfl, ?_, ?_, fun _ => hasks, ?_⟩
      · intro x hx
        exact absurd (hasks ▸ hx) (List.not_mem_nil x)
      · simp [tradesSum, sumQty, min_eq_right hq]
      · intro e he
        cases he
    | cons ask rest =>
      have hA : ModifiableBinaryHeap.peek b.asks = some ask := by
        rw [hasks]
        rfl
      have haskmem : ask ∈ b.asks := by
        rw [hasks]
        simp
      have haside : ask.side = OrderSide.sell := hsc.2 ask haskmem
      have hndrest : (rest.map Order.id).Nodup := by
        rw [hasks, List.map_cons] at hnd
        exact (List.nodup_cons.mp hnd).2
      by_cases hle : ask.quantity ≤ q
      · rw [marketBuyAux_succ_fill hA hle, haside]
        have hB1asks : List.Perm (b.order_filled ask.id OrderSide.sell).1.asks rest := by
          show List.Perm (ModifiableBinaryHeap.retain b.asks (fun o => o.id != ask.id)) rest
          rw [hasks]
          exact retain_cons_self_perm (hasks ▸ hnd)
        have hB1bids : (b.order_filled ask.id OrderSide.sell).1.bids = b.bids := rfl
        have hsc1 : SideConsistent (b.order_filled ask.id OrderSide.sell).1 :=
          order_filled_pres ask.id OrderSide.sell hsc.1 hsc.2
        have hpos1 : PosBook (b.order_filled ask.id OrderSide.sell).1 :=
          order_filled_pres ask.id OrderSide.sell hpos.1 hpos.2
        have hnd1 : ((b.order_filled ask.id OrderSide.sell).1.asks.map Order.id).Nodup :=
          ((hB1asks.map Order.id).nodup_iff).mpr hndrest
        have hq1 : 0 ≤ q - ask.quantity := sub_nonneg.mpr hle
        have hlen1 : (b.order_filled ask.id OrderSide.sell).1.asks.length ≤ n := by
          rw [hB1asks.length_eq]
          rw [hasks] at hlen
          simpa using Nat.succ_le_succ_iff.mp hlen
        obtain ⟨ih1, ih2, ih3, ih4, ih5⟩ :=
          ih (b.order_filled ask.id OrderSide.sell).1 (q - ask.quantity)
            hsc1 hpos1 hnd1 hq1 hlen1
        have hsumrest : sumQty (b.order_filled ask.id OrderSide.sell).1.asks = sumQty rest :=
          sumQty_perm hB1asks
        refine ⟨by rw [ih1, hB1bids], ?_, ?_, ?_, ?_⟩
        · intro x hx
          have hin := ih2 x hx
          have hmem := ((hB1asks.map Order.id).mem_iff).mp hin
          rw [List.map_cons]
          exact List.mem_cons_of_mem _ hmem
        · have h1 : tradesSum (b.order_filled ask.id OrderSide.sell).2 = 0 := by
            rw [order_filled_snd]
            simp [tradesSum]
          have h2 : tradesSum [(⟨b.symbol, OrderbookUpdateType.newTrades, none,
              some ⟨b.symbol, unwrapF ask.price, ask.quantity, o.id, ask.id, o.user_id,
                ask.user_id⟩, none, none⟩ : OrderbookUpdate)] = ask.quantity := by
            simp [tradesSum]
          rw [tradesSum_append, tradesSum_append, ih3, hsumrest, h1, h2, sumQty_cons,
            zero_add]
          exact add_min_sub ask.quantity q (sumQty rest)
        · intro hs
          apply ih4
          rw [hsumrest]
          rw [sumQty_cons] at hs
          linarith
        · intro e he
          rcases List.mem_append.mp he with he1 | he1
          · rcases List.mem_append.mp he1 with he2 | he2
            · rw [order_filled_snd, List.mem_singleton] at he2
              subst he2
              intro hcon
              cases hcon
            · rw [List.mem_singleton] at he2
              subst he2
              intro hcon
              cases hcon
          · exact ih5 e he1
      · rw [marketBuyAux_succ_part hA hle, haside]
        have hq2 : q < ask.quantity := not_le.mp hle
        have hrestpos : ∀ x ∈ rest, 0 < x.quantity := by
          intro x hx
          exact hpos.2 x (by rw [hasks]; simp [hx])
        have h0 : 0 ≤ sumQty rest := sumQty_nonneg hrestpos
        refine ⟨rfl, ?_, ?_, ?_, ?_⟩
        · intro x hx
          have hidf : ∀ y : Order,
              ((fun z : Order => if z.id = ask.id then { z with quantity := ask.quantity - q }
                else z) y).id = y.id := by
            intro y
            dsimp only
            by_cases hy : y.id = ask.id
            · rw [if_pos hy]
            · rw [if_neg hy]
          have hin := mem_map_id_of_modify hidf hx
          rw [hasks] at hin
          exact hin
        · have h1 : tradesSum (b.update_order ask.id (ask.quantity - q) OrderSide.sell).2 = 0 := by
            rw [update_order_snd]
            simp [tradesSum]
          have h2 : tradesSum [(⟨b.symbol, OrderbookUpdateType.newTrades, none,
              some ⟨b.symbol, unwrapF ask.price, q, o.id, ask.id, o.user_id,
                ask.user_id⟩, none, none⟩ : OrderbookUpdate)] = q := by
            simp [tradesSum]
          rw [tradesSum_append, h1, h2, zero_add, sumQty_cons,
            min_eq_left (by linarith)]
        · intro hs
          exfalso
          rw [sumQty_cons] at hs
          linarith
        · intro e he
          rcases List.mem_append.mp he with he1 | he1
          · rw [update_order_snd, List.mem_singleton] at he1
            subst he1
            intro hcon
            cases hcon
          · rw [List.mem_singleton] at he1
            subst he1
            intro hcon
            cases hcon

theorem marketSellAux_succ_none {o : Order} {n : Nat} {b : Orderbook} {q : ℚ}
    (hB : ModifiableBinaryHeap.peek b.bids = none) :
    Orderbook.marketSellAux o (n + 1) b q = (b, []) := by
  simp only [Orderbook.marketSellAux, hB]

theorem marketSellAux_succ_fill {o : Order} {n : Nat} {b : Orderbook} {q : ℚ} {bid : Order}
    (hB : ModifiableBinaryHeap.peek b.bids = some bid) (hle : bid.quantity ≤ q) :
    Orderbook.marketSellAux o (n + 1) b q =
      ((Orderbook.marketSellAux o n (b.order_filled bid.id bid.side).1 (q - bid.quantity)).1,
        (b.order_filled bid.id bid.side).2 ++
          [⟨b.symbol, OrderbookUpdateType.newTrades, none,
            some ⟨b.symbol, unwrapF bid.price, bid.quantity, bid.id, o.id, bid.user_id,
              o.user_id⟩, none, none⟩] ++
          (Orderbook.marketSellAux o n (b.order_filled bid.id bid.side).1
            (q - bid.quantity)).2) := by
  simp only [Orderbook.marketSellAux, hB, if_pos hle]

theorem marketSellAux_succ_part {o : Order} {n : Nat} {b : Orderbook} {q : ℚ} {bid : Order}
    (hB : ModifiableBinaryHeap.peek b.bids = some bid) (hle : ¬ bid.quantity ≤ q) :
    Orderbook.marketSellAux o (n + 1) b q =
      ((b.update_order bid.id (bid.quantity - q) bid.side).1,
        (b.update_order bid.id (bid.quantity - q) bid.side).2 ++
          [⟨b.symbol, OrderbookUpdateType.newTrades, none,
            some ⟨b.symbol, unwrapF bid.price, q, bid.id, o.id, bid.user_id,
              o.user_id⟩, none, none⟩]) := by
  simp only [Orderbook.marketSellAux, hB, if_neg hle]

theorem marketSellAux_spec (o : Order) (fuel : Nat) :
    ∀ (b : Orderbook) (q : ℚ),
      SideConsistent b → PosBook b → (b.bids.map Order.id).Nodup → 0 ≤ q →
      b.bids.length ≤ fuel →
      (Orderbook.marketSellAux o fuel b q).1.asks = b.asks ∧
      (∀ x ∈ (Orderbook.marketSellAux o fuel b q).1.bids, x.id ∈ b.bids.map Order.id) ∧
      tradesSum (Orderbook.marketSellAux o fuel b q).2 = min q (sumQty b.bids) ∧
      (sumQty b.bids ≤ q → (Orderbook.marketSellAux o fuel b q).1.bids = []) ∧
      (∀ e ∈ (Orderbook.marketSellAux o fuel b q).2,
        e.update_type ≠ OrderbookUpdateType.place) := by
  induction fuel with
  | zero =>
    intro b q hsc hpos hnd hq hlen
    have hbids : b.bids = [] := List.eq_nil_of_length_eq_zero (by omega)
    refine ⟨rfl, ?_, ?_, fun _ => hbids, ?_⟩
    · intro x hx
      exact absurd (hbids ▸ hx) (List.not_mem_nil x)
    · rw [hbids]
      simp [Orderbook.marketSellAux, tradesSum, sumQty, min_eq_right hq]
    · intro e he
      cases he
  | succ n ih =>
    intro b q hsc hpos hnd hq hlen
    cases hbids : b.bids with
    | nil =>
      have hB : ModifiableBinaryHeap.peek b.bids = none := by
        rw [hbids]
        rfl
      rw [marketSellAux_succ_none hB]
      refine ⟨rfl, ?_, ?_, fun _ => hbids, ?_⟩
      · intro x hx
        exact absurd (hbids ▸ hx) (List.not_mem_nil x)
      · simp [tradesSum, sumQty, min_eq_right hq]
      · intro e he
        cases he
    | cons bid rest =>
      have hB : ModifiableBinaryHeap.peek b.bids = some bid := by
        rw [hbids]
        rfl
      have hbidmem : bid ∈ b.bids := by
        rw [hbids]
        simp
      have hbside : bid.side = OrderSide.buy := hsc.1 bid hbidmem
      have hndrest : (rest.map Order.id).Nodup := by
        rw [hbids, List.map_cons] at hnd
        exact (List.nodup_cons.mp hnd).2
      by_cases hle : bid.quantity ≤ q
      · rw [marketSellAux_succ_fill hB hle, hbside]
        have hB1bids : List.Perm (b.order_filled bid.id OrderSide.buy).1.bids rest := by
          show List.Perm (ModifiableBinaryHeap.retain b.bids (fun o => o.id != bid.id)) rest
          rw [hbids]
          exact retain_cons_self_perm (hbids ▸ hnd)
        have hB1asks : (b.order_filled bid.id OrderSide.buy).1.asks = b.asks := rfl
        have hsc1 : SideConsistent (b.order_filled bid.id OrderSide.buy).1 :=
          order_filled_pres bid.id OrderSide.buy hsc.1 hsc.2
        have hpos1 : PosBook (b.order_filled bid.id OrderSide.buy).1 :=
          order_filled_pres bid.id OrderSide.buy hpos.1 hpos.2
        have hnd1 : ((b.order_filled bid.id OrderSide.buy).1.bids.map Order.id).Nodup :=
          ((hB1bids.map Order.id).nodup_iff).mpr hndrest
        have hq1 : 0 ≤ q - bid.quantity := sub_nonneg.mpr hle
        have hlen1 : (b.order_filled bid.id OrderSide.buy).1.bids.length ≤ n := by
          rw [hB1bids.length_eq]
          rw [hbids] at hlen
          simpa using Nat.succ_le_succ_iff.mp hlen
        obtain ⟨ih1, ih2, ih3, ih4, ih5⟩ :=
          ih (b.order_filled bid.id OrderSide.buy).1 (q - bid.quantity)
            hsc1 hpos1 hnd1 hq1 hlen1
        have hsumrest : sumQty (b.order_filled bid.id OrderSide.buy).1.bids = sumQty rest :=
          sumQty_perm hB1bids
        refine ⟨by rw [ih1, hB1asks], ?_, ?_, ?_, ?_⟩
        · intro x hx
          have hin := ih2 x hx
          have hmem := ((hB1bids.map Order.id).mem_iff).mp hin
          rw [List.map_cons]
          exact List.mem_cons_of_mem _ hmem
        · have h1 : tradesSum (b.order_filled bid.id OrderSide.buy).2 = 0 := by
            rw [order_filled_snd]
            simp [tradesSum]
          have h2 : tradesSum [(⟨b.symbol, OrderbookUpdateType.newTrades, none,
              some ⟨b.symbol, unwrapF bid.price, bid.quantity, bid.id, o.id, bid.user_id,
                o.user_id⟩, none, none⟩ : OrderbookUpdate)] = bid.quantity := by
            simp [tradesSum]
          rw [tradesSum_append, tradesSum_append, ih3, hsumrest, h1, h2, sumQty_cons,
            zero_add]
          exact add_min_sub bid.quantity q (sumQty rest)
        · intro hs
          apply ih4
          rw [hsumrest]
          rw [sumQty_cons] at hs
          linarith
        · intro e he
          rcases List.mem_append.mp he with he1 | he1
          · rcases List.mem_append.mp he1 with he2 | he2
            · rw [order_filled_snd, List.mem_singleton] at he2
              subst he2
              intro hcon
              cases hcon
            · rw [List.mem_singleton] at he2
              subst he2
              intro hcon
              cases hcon
          · exact ih5 e he1
      · rw [marketSellAux_succ_part hB hle, hbside]
        have hq2 : q < bid.quantity := not_le.mp hle
        have hrestpos : ∀ x ∈ rest, 0 < x.quantity := by
          intro x hx
          exact hpos.1 x (by rw [hbids]; simp [hx])
        have h0 : 0 ≤ sumQty rest := sumQty_nonneg hrestpos
        refine ⟨rfl, ?_, ?_, ?_, ?_⟩
        · intro x hx
          have hidf : ∀ y : Order,
              ((fun z : Order => if z.id = bid.id then { z with quantity := bid.quantity - q }
                else z) y).id = y.id := by
            intro y
            dsimp only
            by_cases hy : y.id = bid.id
            · rw [if_pos hy]
            · rw [if_neg hy]
          have hin := mem_map_id_of_modify hidf hx
          rw [hbids] at hin
          exact hin
        · have h1 : tradesSum (b.update_order bid.id (bid.quantity - q) OrderSide.buy).2 = 0 := by
            rw [update_order_snd]
            simp [tradesSum]
          have h2 : tradesSum [(⟨b.symbol, OrderbookUpdateType.newTrades, none,
              some ⟨b.symbol, unwrapF bid.price, q, bid.id, o.id, bid.user_id,
                o.user_id⟩, none, none⟩ : OrderbookUpdate)] = q := by
            simp [tradesSum]
          rw [tradesSum_append, h1, h2, zero_add, sumQty_cons,
            min_eq_left (by linarith)]
        · intro hs
          exfalso
          rw [sumQty_cons] at hs
          linarith
        · intro e he
          rcases List.mem_append.mp he with he1 | he1
          · rw [update_order_snd, List.mem_singleton] at he1
            subst he1
            intro hcon
            cases hcon
          · rw [List.mem_singleton] at he1
            subst he1
            intro hcon
            cases hcon

theorem add_order_market_buy {b : Orderbook} {o : Order}
    (hmkt : o.order_type = OrderType.market) (hside : o.side = OrderSide.buy) :
    b.add_order o =
      ((Orderbook.marketBuyAux o b.asks.length b o.quantity).1,
        ⟨b.symbol, OrderbookUpdateType.new, some o, none, none, none⟩ ::
          (Orderbook.marketBuyAux o b.asks.length b o.quantity).2) := by
  simp only [Orderbook.add_order, hmkt, hside, eq_self_iff_true, if_true]

theorem add_order_market_sell {b : Orderbook} {o : Order}
    (hmkt : o.order_type = OrderType.market) (hside : o.side = OrderSide.sell) :
    b.add_order o =
      ((Orderbook.marketSellAux o b.bids.length b o.quantity).1,
        ⟨b.symbol, OrderbookUpdateType.new, some o, none, none, none⟩ ::
          (Orderbook.marketSellAux o b.bids.length b o.quantity).2) := by
  have hneg : ¬ o.side = OrderSide.buy := by
    rw [hside]
    simp
  simp only [Orderbook.add_order, hmkt, if_neg hneg]

theorem tradesSum_cons_no_trade {e : OrderbookUpdate} {evs : List OrderbookUpdate}
    (he : e.trade = none) : tradesSum (e :: evs) = tradesSum evs := by
  simp [tradesSum, List.filterMap_cons, he]

/-- C7: a MARKET order submitted through `add_order` is never inserted onto
either side: over a side-consistent, positive, finitely-priced book with
distinct resting ids and a fresh incoming id, the same-side array is left
untouched, every surviving opposing order keeps an id the book already had,
the total traded quantity is `min(order.quantity, opposing resting volume)`
-- execution consumes resting liquidity while quantity remains and the
opposing side is non-empty -- and when the opposing volume is at most the
order quantity the opposing side ends empty, the unfilled remainder being
discarded silently: no `Place` event is emitted and the order id rests on
neither side. -/
theorem C7_market_never_rests (b : Orderbook) (o : Order)
    (hsc : SideConsistent b) (hpos : PosBook b) (hpr : PricedBook b)
    (hmkt : o.order_type = OrderType.market) (hq : 0 ≤ o.quantity)
    (hndb : (b.bids.map Order.id).Nodup) (hnda : (b.asks.map Order.id).Nodup)
    (hfb : o.id ∉ b.bids.map Order.id) (hfa : o.id ∉ b.asks.map Order.id) :
    (o.id ∉ (b.add_order o).1.bids.map Order.id ∧
      o.id ∉ (b.add_order o).1.asks.map Order.id) ∧
    (o.side = OrderSide.buy → (b.add_order o).1.bids = b.bids) ∧
    (o.side = OrderSide.sell → (b.add_order o).1.asks = b.asks) ∧
    (o.side = OrderSide.buy →
      tradesSum (b.add_order o).2 = min o.quantity (sumQty b.asks)) ∧
    (o.side = OrderSide.sell →
      tradesSum (b.add_order o).2 = min o.quantity (sumQty b.bids)) ∧
    (o.side = OrderSide.buy → sumQty b.asks ≤ o.quantity → (b.add_order o).1.asks = []) ∧
    (o.side = OrderSide.sell → sumQty b.bids ≤ o.quantity → (b.add_order o).1.bids = []) ∧
    (∀ e ∈ (b.add_order o).2, e.update_type ≠ OrderbookUpdateType.place) := by
  cases hside : o.side with
  | buy =>
    rw [add_order_market_buy hmkt hside]
    obtain ⟨s1, s2, s3, s4, s5⟩ :=
      marketBuyAux_spec o b.asks.length b o.quantity hsc hpos hnda hq (le_refl _)
    refine ⟨⟨?_, ?_⟩, fun _ => s1, ?_, fun _ => ?_, ?_, fun _ => s4, ?_, ?_⟩
    · rw [s1]
      exact hfb
    · intro hmem
      obtain ⟨x, hx, hxid⟩ := List.mem_map.mp hmem
      exact hfa (hxid ▸ s2 x hx)
    · intro hcon
      exact OrderSide.noConfusion hcon
    · rw [tradesSum_cons_no_trade rfl]
      exact s3
    · intro hcon
      exact OrderSide.noConfusion hcon
    · intro hcon
      exact OrderSide.noConfusion hcon
    · intro e he
      rcases List.mem_cons.mp he with he1 | he1
      · subst he1
        intro hcon
        cases hcon
      · exact s5 e he1
  | sell =>
    rw [add_order_market_sell hmkt hside]
    obtain ⟨s1, s2, s3, s4, s5⟩ :=
      marketSellAux_spec o b.bids.length b o.quantity hsc hpos hndb hq (le_refl _)
    refine ⟨⟨?_, ?_⟩, ?_, fun _ => s1, ?_, fun _ => ?_, ?_, fun _ => s4, ?_⟩
    · intro hmem
      obtain ⟨x, hx, hxid⟩ := List.mem_map.mp hmem
      exact hfb (hxid ▸ s2 x hx)
    · rw [s1]
      exact hfa
    · intro hcon
      exact OrderSide.noConfusion hcon
    · intro hcon
      exact OrderSide.noConfusion hcon
    · rw [tradesSum_cons_no_trade rfl]
      exact s3
    · intro hcon
      exact OrderSide.noConfusion hcon
    · intro e he
      rcases List.mem_cons.mp he with he1 | he1
      · subst he1
        intro hcon
        cases hcon
      · exact s5 e he1

/-- The market buy order of the C7 witness. -/
def wMkt : Order := ⟨9, 19, 5, OrderSide.buy, 3, 3, none, OrderType.market⟩

/-- Witness for C7: a market buy for 3 sweeps the single resting ask of
`wBook` (volume 1) and discards the remaining 2. -/
theorem C7_market_never_rests_witness :
    (SideConsistent wBook ∧ PosBook wBook ∧ PricedBook wBook ∧
      wMkt.order_type = OrderType.market ∧ (0 : ℚ) ≤ wMkt.quantity ∧
      (wBook.bids.map Order.id).Nodup ∧ (wBook.asks.map Order.id).Nodup ∧
      wMkt.id ∉ wBook.bids.map Order.id ∧ wMkt.id ∉ wBook.asks.map Order.id) ∧
    ((wMkt.id ∉ (wBook.add_order wMkt).1.bids.map Order.id ∧
      wMkt.id ∉ (wBook.add_order wMkt).1.asks.map Order.id) ∧
    (wMkt.side = OrderSide.buy → (wBook.add_order wMkt).1.bids = wBook.bids) ∧
    (wMkt.side = OrderSide.sell → (wBook.add_order wMkt).1.asks = wBook.asks) ∧
    (wMkt.side = OrderSide.buy →
      tradesSum (wBook.add_order wMkt).2 = min wMkt.quantity (sumQty wBook.asks)) ∧
    (wMkt.side = OrderSide.sell →
      tradesSum (wBook.add_order wMkt).2 = min wMkt.quantity (sumQty wBook.bids)) ∧
    (wMkt.side = OrderSide.buy → sumQty wBook.asks ≤ wMkt.quantity →
      (wBook.add_order wMkt).1.asks = []) ∧
    (wMkt.side = OrderSide.sell → sumQty wBook.bids ≤ wMkt.quantity →
      (wBook.add_order wMkt).1.bids = []) ∧
    (∀ e ∈ (wBook.add_order wMkt).2, e.update_type ≠ OrderbookUpdateType.place)) :=
  ⟨⟨⟨by decide, by decide⟩, ⟨by decide, by decide⟩, ⟨by decide, by decide⟩,
    rfl, by decide, by decide, by decide, by decide, by decide⟩,
    C7_market_never_rests wBook wMkt ⟨by decide, by decide⟩ ⟨by decide, by decide⟩
      ⟨by decide, by decide⟩ rfl (by decide) (by decide) (by decide)
      (by decide) (by decide)⟩

/-! C2 counterexample: a reachable state falsifying the unrestricted claim. -/

/-- The resting sell of the C2 counterexample book. -/
def nanAsk : Order := ⟨10, 20, 5, OrderSide.sell, 1, 1, some (F64.num 5), OrderType.limit⟩

/-- The C2 counterexample book, built through the public API: the NaN-priced
buy order rests first (a push onto an empty side performs no comparison, so
the source does not abort), then a sell at 5 rests opposite it; the matcher's
`bid.price >= ask.price` guard is false on the incomparable pair, so
`match_orders` exits at once, and no price is unwrapped along the way. -/
def nanBook : Orderbook := (((Orderbook.new 5).add_order nanOrder).1.add_order nanAsk).1

/-- C2 counterexample: at the reachable book `nanBook`, `match_orders`
returns with both sides non-empty and with no rationals `bp < ap` describing
the peeked best prices (the best bid's price is NaN), so the claim as stated
over every book state is false. -/
theorem C2_counterexample :
    nanBook.bids = [nanOrder] ∧ nanBook.asks = [nanAsk] ∧
    nanBook.match_orders.1 = nanBook ∧
    nanBook.match_orders.1.bids ≠ [] ∧ nanBook.match_orders.1.asks ≠ [] ∧
    ¬ ∃ bid ask bp ap,
      ModifiableBinaryHeap.peek nanBook.match_orders.1.bids = some bid ∧
      ModifiableBinaryHeap.peek nanBook.match_orders.1.asks = some ask ∧
      bid.price = some (F64.num bp) ∧ ask.price = some (F64.num ap) ∧ bp < ap := by
  refine ⟨rfl, rfl, rfl, by decide, by decide, ?_⟩
  rintro ⟨bid, ask, bp, ap, hB, hA, hbp, hap, hlt⟩
  have hpeek : ModifiableBinaryHeap.peek nanBook.match_orders.1.bids = some nanOrder := rfl
  rw [hpeek] at hB
  have hbid : nanOrder = bid := Option.some.inj hB
  rw [← hbid] at hbp
  have hnan : nanOrder.price = some F64.nan := rfl
  rw [hnan] at hbp
  exact F64.noConfusion (Option.some.inj hbp)

end OrderbookRS
